import Mathlib

/-! # l2met: log-tuple extraction and the Librato batcher

A shallow embedding of `bucket/log_tuple.go` and of `outlet/librato_outlet.go`
(conversion, the batching loop, delivery with retries and the constructor),
followed by theorems about them.

Conventions of the embedding.

* A Go `[]byte` and a Go `string` are both a `List Nat` of byte values
  (`0 .. 255`); `ascii` turns a Lean literal made of ASCII characters into
  such a list.
* Methods with a pointer receiver that assign to a field return the updated
  receiver next to their result.
* A Go `(T, error)` result is an `Except Err T`; in every error return of the
  embedded code the accompanying value is the zero value.
* A run-time panic (slice bounds out of range) is `none` in an `Option` result.
* `strconv.ParseFloat` and `strconv.FormatFloat` belong to the Go standard
  library; they are modelled from their documented contract (correct rounding
  to the nearest float64, ties to even; `%e`/`%f` selection of the `g` verb),
  in exact natural-number arithmetic.
* A channel is the list of what was sent on it, oldest first; the network is a
  function from the number of a request to what happens to that request.
-/

namespace L2met

/-! ## Bytes and strings -/

/-- Go byte strings: a list of byte values. -/
abbrev GoBytes := List Nat

/-- The bytes of a literal made of ASCII characters. -/
def ascii (s : String) : GoBytes := s.toList.map Char.toNat

/-- The test `'0' <= b && b <= '9'`. -/
def isDigit (b : Nat) : Bool := decide (48 ≤ b) && decide (b ≤ 57)

/-- The byte `'.'`. -/
def dot : Nat := 46

/-! ## A model of float64 values and of `strconv` -/

/-- A finite, non-negative float64, held as its exact value `num / 2 ^ shift`,
in lowest terms (`shift = 0` or `num` odd). Negative numbers, infinities and
NaN never arise from the strings `Float64` parses. -/
structure F64 where
  num : Nat
  shift : Nat
  deriving DecidableEq, Repr

/-- Errors returned by the embedded code. -/
inductive Err where
  /-- The `strconv.ErrSyntax` error of `ParseFloat`. -/
  | parseSyntax
  /-- The `strconv.ErrRange` error of `ParseFloat`. -/
  | parseRange
  /-- The error `errors.New("Unable to parse float.")`. -/
  | unableToParseFloat
  /-- The error `errors.New("Unable to locate value tuple.")`. -/
  | unableToLocateValue
  deriving DecidableEq, Repr

deriving instance DecidableEq for Except

/-- Round `a / b` to the nearest natural number, ties to even. -/
def roundHalfEven (a b : Nat) : Nat :=
  let q := a / b
  let r := a % b
  if 2 * r < b then q
  else if b < 2 * r then q + 1
  else if q % 2 = 0 then q else q + 1

/-- The number of binary digits of `n`, by halving at most `fuel` times. -/
def bitLength : Nat → Nat → Nat
  | 0, _ => 0
  | fuel + 1, n => if n = 0 then 0 else bitLength fuel (n / 2) + 1

/-- The exponent `⌊log₂ n⌋` of the leading binary digit of `n` (0 for `n = 0`). -/
def log2Floor (n : Nat) : Nat := bitLength n n - 1

/-- Bring `m / 2 ^ s` to lowest terms. -/
def F64.reduce : Nat → Nat → F64
  | m, 0 => ⟨m, 0⟩
  | m, s + 1 => if m % 2 = 0 then F64.reduce (m / 2) s else ⟨m, s + 1⟩

/-- The float64 nearest to `n / d` (for `d > 0`), ties to even; `none` when the
rounded value is not finite, that is when it reaches `2 ^ 1024`. The binary
exponent `e` of the value is `⌊log₂ (n / d)⌋`; the unit in the last place is
`2 ^ (e - 52)`, and `2 ^ (-1074)` in the subnormal range. -/
def nearestF64 (n d : Nat) : Option F64 :=
  if n = 0 then some ⟨0, 0⟩
  else if d ≤ n then
    -- value at least 1
    let e := log2Floor (n / d)
    if 52 ≤ e then
      let m := roundHalfEven n (d * 2 ^ (e - 52))
      if 2 ^ 1024 ≤ m * 2 ^ (e - 52) then none else some ⟨m * 2 ^ (e - 52), 0⟩
    else
      some (F64.reduce (roundHalfEven (n * 2 ^ (52 - e)) d) (52 - e))
  else
    -- value below 1: `j` is the least exponent with `1 <= value * 2 ^ j`
    let j := log2Floor ((d - 1) / n) + 1
    let s := min (j + 52) 1074
    some (F64.reduce (roundHalfEven (n * 2 ^ s) d) s)

/-- The decimal digits of a numeral with its `'.'` removed, as numbers. -/
def digitValues (s : GoBytes) : List Nat := (s.filter isDigit).map (· - 48)

/-- The natural number written by a list of decimal digits, most significant
first. -/
def decimalNat (ds : List Nat) : Nat := ds.foldl (fun acc d => 10 * acc + d) 0

/-- The number of bytes after the first `'.'` of a numeral (0 without one). -/
def fracLen : GoBytes → Nat
  | [] => 0
  | b :: rest => if b = dot then rest.length else fracLen rest

/-- A decimal numeral as `ParseFloat` accepts it among the strings `Float64`
builds: digits with at most one `'.'`, and at least one digit. -/
def isDecimalNumeral (s : GoBytes) : Bool :=
  s.all (fun b => isDigit b || b == dot) && decide (s.count dot ≤ 1) && s.any isDigit

/-- Model of `strconv.ParseFloat(s, 10)` (any bit size other than 32 means 64).
On a decimal numeral the result is the float64 nearest to the number written,
and `ErrRange` when that is infinite. Everything else is given `ErrSyntax`: that
is what Go returns for the strings `Float64` can build (digits and at most one
`'.'`) when they hold no digit; signs, exponents and the other syntax Go
accepts cannot occur in them. -/
def ParseFloat (s : GoBytes) : Except Err F64 :=
  if isDecimalNumeral s then
    match nearestF64 (decimalNat (digitValues s)) (10 ^ fracLen s) with
    | some f => .ok f
    | none => .error .parseRange
  else .error .parseSyntax

/-- The decimal digits of `n`, as ASCII bytes. -/
def decimalDigits (n : Nat) : GoBytes := (Nat.toDigits 10 n).map Char.toNat

/-- A digit string without its trailing `'0'` bytes. -/
def trimZeros (ds : GoBytes) : GoBytes := (ds.reverse.dropWhile (· = 48)).reverse

/-- For `0 < a / b < 1`: the number of zeros between the decimal point and the
first non-zero digit of `a / b`, found by multiplying by ten at most `fuel`
times. -/
def leadingZeros : Nat → Nat → Nat → Nat
  | 0, _, _ => 0
  | fuel + 1, a, b => if b ≤ 10 * a then 0 else leadingZeros fuel (10 * a) b + 1

/-- The position `dp` of the decimal point of a positive value:
`10 ^ (dp - 1) <= value < 10 ^ dp`. -/
def decimalPoint (f : F64) : Int :=
  if 2 ^ f.shift ≤ f.num then ((decimalDigits (f.num / 2 ^ f.shift)).length : Int)
  else -((leadingZeros f.shift f.num (2 ^ f.shift) : Nat) : Int)

/-- The decimal digits of a positive value rounded to `prec` significant
digits (ties to even), trailing zeros removed, with the position of the decimal
point: the `decimalSlice` that `FormatFloat` hands to `formatDigits`. -/
def roundDecimal (f : F64) (prec : Nat) : GoBytes × Int :=
  let dp := decimalPoint f
  let r :=
    if dp ≤ prec then roundHalfEven (f.num * 10 ^ ((prec : Int) - dp).toNat) (2 ^ f.shift)
    else roundHalfEven f.num (2 ^ f.shift * 10 ^ (dp - prec).toNat)
  (trimZeros (decimalDigits r), if r = 10 ^ prec then dp + 1 else dp)

/-- The digit at index `j` of a digit string, `'0'` outside of it. -/
def digitAt (ds : GoBytes) (j : Int) : Nat :=
  if 0 ≤ j ∧ j < ds.length then ds.getD j.toNat 48 else 48

/-- The function `fmtE` of `strconv` for a non-negative value: `d.ddddde±dd`
with `prec` digits after the point. -/
def fmtE (ds : GoBytes) (dp : Int) (prec : Nat) : GoBytes :=
  let first := [ds.getD 0 48]
  let frac :=
    if 0 < prec then dot :: (List.range prec).map (fun (i : Nat) => digitAt ds ((i : Int) + 1))
    else []
  let exp : Int := if ds.length = 0 then 0 else dp - 1
  let sign := if exp < 0 then 45 else 43
  let mag := decimalDigits exp.natAbs
  let expDigits := if exp.natAbs < 10 then 48 :: mag else mag
  first ++ frac ++ [101, sign] ++ expDigits

/-- The function `fmtF` of `strconv` for a non-negative value: the integer
part, then `prec` digits after the point. -/
def fmtF (ds : GoBytes) (dp : Int) (prec : Nat) : GoBytes :=
  let intPart :=
    if 0 < dp then (List.range dp.toNat).map (fun (i : Nat) => digitAt ds (i : Int)) else [48]
  let frac :=
    if 0 < prec then dot :: (List.range prec).map (fun (i : Nat) => digitAt ds (dp + (i : Int)))
    else []
  intPart ++ frac

/-- The `'g'` case of `formatDigits` in `strconv`, for a precision that is not
the shortest one: `%e` when the exponent is below -4 or not below the
precision, `%f` otherwise. -/
def formatDigitsG (ds : GoBytes) (dp : Int) (prec : Nat) : GoBytes :=
  let nd : Int := ds.length
  let eprec : Int := if (prec : Int) > nd ∧ nd ≥ dp then nd else prec
  let exp := dp - 1
  if exp < -4 ∨ exp ≥ eprec then
    fmtE ds dp ((if (prec : Int) > nd then nd else (prec : Int)) - 1).toNat
  else
    fmtF ds dp (max ((if (prec : Int) > dp then nd else (prec : Int)) - dp) 0).toNat

/-- Model of `strconv.FormatFloat(f, 'g', 10, 64)` on a finite non-negative
value: the value rounded to at most 10 significant digits, written by
`formatDigits`. Zero has no digits and its decimal point at 0. -/
def FormatFloatG10 (f : F64) : GoBytes :=
  if f.num = 0 then formatDigitsG [] 0 10
  else formatDigitsG (roundDecimal f 10).1 (roundDecimal f 10).2 10

/-! ## `bucket/log_tuple.go` -/

/-- The struct `logTuple`. -/
structure logTuple where
  Key : GoBytes
  Val : GoBytes
  deriving DecidableEq, Repr

/-- The method `Name`. -/
def logTuple.Name (lt : logTuple) : GoBytes := lt.Key

/-- The method `String`. -/
def logTuple.String (lt : logTuple) : GoBytes := lt.Val

/-- The loop of `Float64`: the bytes appended to `digits`, given the rest of
`lt.Val` and the flag `foundDecimal`. -/
def scanDigits : GoBytes → Bool → GoBytes
  | [], _ => []
  | b :: rest, foundDecimal =>
    if b = dot ∧ foundDecimal = false then b :: scanDigits rest true
    else if b < 48 ∨ b > 57 then []
    else b :: scanDigits rest foundDecimal

/-- The method `Float64`: its result and the receiver after the call. -/
def logTuple.Float64 (lt : logTuple) : Except Err F64 × logTuple :=
  let lt1 : logTuple := if lt.Val.length = 0 then { lt with Val := ascii "1" } else lt
  let digits := scanDigits lt1.Val false
  if digits.length > 0 then
    match ParseFloat digits with
    | .error err => (.error err, lt1)
    | .ok v => (.ok v, lt1)
  else (.error .unableToParseFloat, lt1)

/-- The method `Units`: its result (`none` when the slice expression
`lt.Val[len(fb):]` panics, out of range) and the receiver after the call. -/
def logTuple.Units (lt : logTuple) : Option GoBytes × logTuple :=
  match lt.Float64 with
  | (.error _, lt1) => (some [], lt1)
  | (.ok f, lt1) =>
    let fb := FormatFloatG10 f
    if fb.length ≤ lt1.Val.length then (some (lt1.Val.drop fb.length), lt1)
    else (none, lt1)

/-- The type `tuples`, a slice of tuples. -/
abbrev tuples := List logTuple

/-- The method `HandleLogfmt`. -/
def tuples.HandleLogfmt (t : tuples) (k v : GoBytes) : tuples := t ++ [⟨k, v⟩]

/-- The method `Metric`. -/
def tuples.Metric : tuples → GoBytes
  | [] => []
  | lt :: rest => if lt.Key = ascii "measure" then lt.String else tuples.Metric rest

/-- The function `strings.Split(s, sep)` for a separator of one byte. -/
def Split (sep : Nat) : GoBytes → List GoBytes
  | [] => [[]]
  | b :: rest =>
    if b = sep then [] :: Split sep rest
    else
      match Split sep rest with
      | [] => [[b]]
      | tok :: toks => (b :: tok) :: toks

/-- The function `strings.Join`. -/
def Join : List GoBytes → GoBytes → GoBytes
  | [], _ => []
  | [a], _ => a
  | a :: b :: rest, sep => a ++ sep ++ Join (b :: rest) sep

/-- The method `MetricSource`. -/
def tuples.MetricSource : tuples → GoBytes
  | [] => []
  | lt :: rest =>
    if lt.Key = ascii "source" then
      let tokens := Split dot lt.String
      if tokens.length = 5 then Join ((tokens.drop 2).take 2) [dot]
      else tuples.MetricSource rest
    else tuples.MetricSource rest

/-- The method `Value`: its result and the collection after the call (the
tuples are held by pointer, and `Float64` may assign to the one it is called
on). -/
def tuples.Value : tuples → Except Err F64 × tuples
  | [] => (.error .unableToLocateValue, [])
  | lt :: rest =>
    if lt.Key = ascii "val" then (lt.Float64.1, lt.Float64.2 :: rest)
    else ((tuples.Value rest).1, lt :: (tuples.Value rest).2)

/-- The method `Source`. -/
def tuples.Source : tuples → GoBytes
  | [] => []
  | lt :: rest =>
    if lt.Key = ascii "source" then lt.String
    else if lt.Key = ascii "host" then lt.String
    else tuples.Source rest

/-! ## `outlet/librato_outlet.go`: payloads and the batching loop -/

/-- The struct `LibratoAttributes`. -/
structure LibratoAttributes where
  Min : Int
  Units : GoBytes
  deriving DecidableEq, Repr

/-- The struct `Payload`. The batcher holds payloads by pointer and never
assigns to them, so they are embedded as values. -/
structure Payload where
  Name : GoBytes
  Time : Int
  Val : GoBytes
  Source : GoBytes
  User : GoBytes
  Pass : GoBytes
  Attr : Option LibratoAttributes
  deriving DecidableEq, Repr

/-- A Go slice `[]*Payload`: its elements and its capacity. The nil slice is
`⟨[], 0⟩`. -/
structure PayloadSlice where
  elems : List Payload
  cap : Nat
  deriving DecidableEq, Repr

/-- The built-in `append(s, p)`. While the length is below the capacity the
capacity stays; otherwise Go allocates a larger array, whose capacity the
language leaves to the runtime: `grow` stands for that choice. -/
def PayloadSlice.append (grow : Nat → Nat) (s : PayloadSlice) (p : Payload) : PayloadSlice :=
  if s.elems.length < s.cap then ⟨s.elems ++ [p], s.cap⟩
  else ⟨s.elems ++ [p], grow s.cap⟩

/-- The map `batchMap`, as a list of entries with distinct keys. The order of
the list has no meaning: a Go map is iterated in an unspecified order. -/
abbrev BatchMap := List (GoBytes × PayloadSlice)

/-- The index expression `v, present := m[k]`, `none` when `k` is absent. -/
def BatchMap.get? (m : BatchMap) (k : GoBytes) : Option PayloadSlice :=
  (m.find? (fun e => decide (e.1 = k))).map Prod.snd

/-- The index expression `m[k]`: the zero value (the nil slice) when `k` is
absent. -/
def BatchMap.index (m : BatchMap) (k : GoBytes) : PayloadSlice :=
  (m.get? k).getD ⟨[], 0⟩

/-- The built-in `delete(m, k)`. -/
def BatchMap.delete (m : BatchMap) (k : GoBytes) : BatchMap :=
  m.filter (fun e => decide (e.1 ≠ k))

/-- The assignment `m[k] = v`. -/
def BatchMap.set (m : BatchMap) (k : GoBytes) (v : PayloadSlice) : BatchMap :=
  (k, v) :: m.delete k

/-- The state of the goroutine `batch`: its local map and the slices it has sent
on the channel `Outbox`, oldest first. -/
structure BatcherState where
  batchMap : BatchMap
  Outbox : List PayloadSlice
  deriving DecidableEq, Repr

/-- The state in which `batch` enters its loop. -/
def BatcherState.init : BatcherState := ⟨[], []⟩

/-- The byte `':'`. -/
def colon : Nat := 58

/-- The grouping key `payload.User + ":" + payload.Pass`. -/
def Payload.index (payload : Payload) : GoBytes := payload.User ++ [colon] ++ payload.Pass

/-- The case `payload := <-l.Conversions` of the `select` in `batch`. -/
def handlePayload (grow : Nat → Nat) (st : BatcherState) (payload : Payload) : BatcherState :=
  let index := payload.index
  let batchMap1 :=
    match st.batchMap.get? index with
    | none => st.batchMap.set index ⟨[payload], 300⟩
    | some _ => st.batchMap.set index ((st.batchMap.index index).append grow payload)
  if (batchMap1.index index).elems.length = (batchMap1.index index).cap then
    { batchMap := batchMap1.delete index, Outbox := st.Outbox ++ [batchMap1.index index] }
  else { batchMap := batchMap1, Outbox := st.Outbox }

/-- The case `<-ticker` of the `select` in `batch`, for the entries of the map
in the order `range` produces them. -/
def handleTick : List (GoBytes × PayloadSlice) → BatcherState → BatcherState
  | [], st => st
  | (k, v) :: rest, st =>
    handleTick rest
      { batchMap := st.batchMap.delete k,
        Outbox := if v.elems.length > 0 then st.Outbox ++ [v] else st.Outbox }

/-- One iteration of the loop of `batch`: a payload arrives, or the ticker
fires and the map is ranged over in some order. -/
inductive Step (grow : Nat → Nat) : BatcherState → BatcherState → Prop where
  | payload (st : BatcherState) (p : Payload) : Step grow st (handlePayload grow st p)
  | tick (st : BatcherState) (order : List (GoBytes × PayloadSlice))
      (h : order.Perm st.batchMap) : Step grow st (handleTick order st)

/-- The states `batch` can be in at the head of its loop. -/
inductive Reachable (grow : Nat → Nat) : BatcherState → Prop where
  | init : Reachable grow BatcherState.init
  | step {st st1 : BatcherState} (h : Reachable grow st) (hs : Step grow st st1) :
      Reachable grow st1

/-! ## `outlet/librato_outlet.go`: conversion -/

/-- A float64 value: finite with a sign, infinite with a sign, or not a
number. -/
inductive GoFloat where
  | finite (neg : Bool) (abs : F64)
  | inf (neg : Bool)
  | nan
  deriving DecidableEq, Repr

/-- A `time.Time` of the Go library, as the seconds since the Unix epoch and the
nanoseconds within that second. -/
structure GoTime where
  sec : Int
  nsec : Nat
  deriving DecidableEq, Repr

/-- The exact decimal digits of a positive value, trailing zeros removed, with
the position of the decimal point: `num / 2 ^ shift` is `num * 5 ^ shift`
divided by `10 ^ shift`. -/
def exactDecimal (f : F64) : GoBytes × Int :=
  (trimZeros (decimalDigits (f.num * 5 ^ f.shift)), decimalPoint f)

/-- The digits `strconv` formats for the `'f'` verb with `prec` digits after
the point: the exact decimal of the value rounded to `dp + prec` digits, and
left as it is when that count is negative (`decimal.Round` then returns at
once). A decimal without digits has its point at 0. -/
def roundFixed (f : F64) (prec : Nat) : GoBytes × Int :=
  if f.num = 0 then ([], 0)
  else if decimalPoint f + prec < 0 then exactDecimal f
  else
    let r := roundDecimal f (decimalPoint f + prec).toNat
    if r.1 = [] then ([], 0) else r

/-- Model of `strconv.FormatFloat(x, 'f', prec, 64)`: `NaN`, `+Inf` and `-Inf` for
the values that are not finite, and otherwise the sign and `fmtF` of the value
rounded to `prec` digits after the point. -/
def FormatFloatF (prec : Nat) : GoFloat → GoBytes
  | .nan => ascii "NaN"
  | .inf false => ascii "+Inf"
  | .inf true => ascii "-Inf"
  | .finite neg f =>
    (if neg then [45] else []) ++ fmtF (roundFixed f prec).1 (roundFixed f prec).2 prec

/-- The function `ff`. -/
def ff (x : GoFloat) : GoBytes := FormatFloatF 5 x

/-- The function `ft`: `t.Unix()`. -/
def ft (t : GoTime) : Int := t.sec

/-- Modelled from the spec: the type `bucket.Id` of package `bucket`, whose
declaration is not among the sources: the name, units, source, destination user
and pass and time of a bucket identity, the fields `convert` reads. -/
structure Id where
  Name : GoBytes
  Units : GoBytes
  Source : GoBytes
  User : GoBytes
  Pass : GoBytes
  Time : GoTime
  deriving DecidableEq, Repr

/-- Modelled from the spec: the type `bucket.Bucket` of package `bucket`, whose
declaration is not among the sources: an identity and the recorded values. -/
structure Bucket where
  Id : Id
  Vals : List GoFloat
  deriving DecidableEq, Repr

/-- The body of the loop of `convert` for one bucket received from `Inbox`: the
payloads it sends on `Conversions`. The method `Mean` of `bucket.Bucket` is not
among the sources and is the parameter `mean`; what the loop prints is left
out. -/
def convertOne (mean : Bucket → GoFloat) (bucket : Bucket) : List Payload :=
  if bucket.Vals.length = 0 then []
  else
    let attrs : LibratoAttributes := { Min := 0, Units := bucket.Id.Units }
    [{ Attr := some attrs, User := bucket.Id.User, Pass := bucket.Id.Pass,
       Time := ft bucket.Id.Time, Source := bucket.Id.Source,
       Name := bucket.Id.Name ++ ascii ".mean", Val := ff (mean bucket) }]

/-- The method `convert`: the payloads sent on `Conversions` for the buckets
received from `Inbox`, in the order of one converter. -/
def convert (mean : Bucket → GoFloat) (inbox : List Bucket) : List Payload :=
  inbox.flatMap (convertOne mean)

/-! ## `outlet/librato_outlet.go`: delivery -/

/-- The errors `post` and `postWithRetry` return, by what determines their
message. -/
inductive PostError where
  /-- The error returned by `httpClient.Do`. -/
  | transport (msg : GoBytes)
  /-- The error `error=failed-request code=%d`, when the response body could not
  be read. -/
  | failedRequestCode (code : Int)
  /-- The error `error=failed-request code=%d resp=body=%s req-body=%s`. -/
  | failedRequest (code : Int) (resp : GoBytes) (reqBody : GoBytes)
  /-- The error `errors.New("Unable to post.")`. -/
  | unableToPost
  deriving DecidableEq, Repr

/-- An `*http.Response` as far as `post` looks at it: the status code and what
`ioutil.ReadAll(resp.Body)` returns, `none` when it fails. -/
structure Response where
  StatusCode : Int
  Body : Option GoBytes
  deriving DecidableEq, Repr

/-- What happens to one request given to `httpClient.Do`: how many bytes of the
request body the transport reads, and the response or the transport error. -/
structure Exchange where
  sent : Nat
  result : Except GoBytes Response

/-- A request as `post` builds it: the credentials of `SetBasicAuth` and the
body, the unread bytes of the buffer handed to `http.NewRequest`. -/
structure Request where
  User : GoBytes
  Pass : GoBytes
  Body : GoBytes
  deriving DecidableEq, Repr

/-- The state of a delivery: the unread bytes of the `*bytes.Buffer` shared by
the attempts, and the requests given to `httpClient.Do` so far. -/
structure Delivery where
  body : GoBytes
  requests : List Request
  deriving DecidableEq, Repr

/-- The method `post`. The network is the parameter `net`: its value at `n` is
what happens to the request number `n` of the delivery. `http.NewRequest` with
the method `POST` and the constant `libratoUrl` does not fail; the transport
reads the request body from the buffer, which removes what it reads. -/
def post (net : Nat → Exchange) (u p : GoBytes) (d : Delivery) : Option PostError × Delivery :=
  let ex := net d.requests.length
  let d1 : Delivery := { body := d.body.drop ex.sent, requests := d.requests ++ [⟨u, p, d.body⟩] }
  match ex.result with
  | .error e => (some (.transport e), d1)
  | .ok resp =>
    if resp.StatusCode.tdiv 100 ≠ 2 then
      match resp.Body with
      | none => (some (.failedRequestCode resp.StatusCode), d1)
      | some s => (some (.failedRequest resp.StatusCode s d1.body), d1)
    else (none, d1)

/-- The loop of `postWithRetry`, for the values of `i` it still has to run
through: `i` goes from 0 to `l.Retries` in steps of one. -/
def retryLoop (retries : Int) (net : Nat → Exchange) (u p : GoBytes) :
    List Nat → Delivery → Option PostError × Delivery
  | [], d => (some .unableToPost, d)
  | i :: rest, d =>
    match post net u p d with
    | (some err, d1) =>
      if (i : Int) = retries then (some err, d1) else retryLoop retries net u p rest d1
    | (none, d1) => (none, d1)

/-- The method `postWithRetry`, with `l.Retries` as `retries`: its result and the
state of the delivery when it returns. -/
def postWithRetry (retries : Int) (net : Nat → Exchange) (u p body : GoBytes) :
    Option PostError × Delivery :=
  retryLoop retries net u p (List.range (retries + 1).toNat) ⟨body, []⟩

/-- What the body of the loop of `outlet` does with one slice received from
`Outbox`. -/
inductive OutletStep where
  /-- The branch `len(payloads) < 1`. -/
  | emptyMetricsError
  /-- The panic of `payloads[0]`, index out of range. -/
  | indexOutOfRange
  /-- The branch of a failed `json.Marshal`. -/
  | jsonError (user : GoBytes)
  /-- The call of `postWithRetry`, with its result. -/
  | posted (result : Option PostError × Delivery)

/-- The body of the loop of `outlet` for one slice. The function `json.Marshal`
of the Go library is the parameter `marshal`, `none` when it fails. -/
def outletOne (retries : Int) (marshal : List Payload → Option GoBytes)
    (net : Nat → Exchange) (payloads : PayloadSlice) : OutletStep :=
  if payloads.elems.length < 1 then .emptyMetricsError
  else
    match payloads.elems[0]? with
    | none => .indexOutOfRange
    | some sample =>
      match marshal payloads.elems with
      | none => .jsonError sample.User
      | some j => .posted (postWithRetry retries net sample.User sample.Pass j)

/-- The struct `LibratoOutlet`. A channel is held as its capacity, the reader as
an option that is `none` for the nil interface. -/
structure LibratoOutlet (R : Type) where
  Inbox : Int
  Conversions : Int
  Outbox : Int
  NumOutlets : Int
  NumConverters : Int
  Reader : Option R
  Retries : Int

/-- The zero value `new(LibratoOutlet)`. -/
def LibratoOutlet.zero (R : Type) : LibratoOutlet R :=
  { Inbox := 0, Conversions := 0, Outbox := 0, NumOutlets := 0, NumConverters := 0,
    Reader := none, Retries := 0 }

set_option linter.unusedVariables false in
/-- The function `NewLibratoOutlet`; `none` is the panic of `make` for a negative
channel size. -/
def NewLibratoOutlet {R : Type} (s c r : Int) (rdr : R) : Option (LibratoOutlet R) :=
  if s < 0 then none
  else
    some { LibratoOutlet.zero R with
      Inbox := s, Conversions := s, Outbox := s,
      NumConverters := c, NumOutlets := c, Reader := some rdr }

/-! ## Vocabulary of the specification

Definitions that follow the words of the specification, to state the theorems. -/

/-- The first tuple of a collection whose key is `k`. -/
def firstWithKey (k : GoBytes) (t : tuples) : Option logTuple :=
  t.find? (fun lt => decide (lt.Key = k))

/-- The value `Float64` works on: `"1"` in place of an empty value. -/
def valOrOne (v : GoBytes) : GoBytes := if v = [] then ascii "1" else v

/-- A string "made only of bytes `'0'..'9'` and at most one `'.'`". -/
def NumeralBytes (p : GoBytes) : Prop :=
  (∀ b ∈ p, isDigit b = true ∨ b = dot) ∧ p.count dot ≤ 1

/-- The string `p` is the longest prefix of `v` made only of digits and at most
one `'.'`. -/
def LongestNumeralPrefix (p v : GoBytes) : Prop :=
  p <+: v ∧ NumeralBytes p ∧ ∀ q : GoBytes, q <+: v → NumeralBytes q → q.length ≤ p.length

/-- A string of digits and dots with at most `k` dots. -/
def DigitsAndDots (k : Nat) (p : GoBytes) : Prop :=
  (∀ b ∈ p, isDigit b = true ∨ b = dot) ∧ p.count dot ≤ k

/-- The number of further dots the loop of `Float64` accepts, given its flag
`foundDecimal`. -/
def dotsLeft (foundDecimal : Bool) : Nat := if foundDecimal then 0 else 1

/-- What holds of every entry of `batchMap` at the head of the loop of `batch`:
the slice was made with capacity 300, holds between 1 and 299 payloads, and each
of them has the key of the entry as its grouping key. -/
def EntryOk (e : GoBytes × PayloadSlice) : Prop :=
  e.2.cap = 300 ∧ 0 < e.2.elems.length ∧ e.2.elems.length < 300 ∧
    ∀ q ∈ e.2.elems, q.index = e.1

/-- What holds of every slice sent on `Outbox`: between 1 and 300 payloads, all
with one grouping key. -/
def SentOk (b : PayloadSlice) : Prop :=
  0 < b.elems.length ∧ b.elems.length ≤ 300 ∧ ∃ k : GoBytes, ∀ q ∈ b.elems, q.index = k

/-- The invariant of the loop of `batch`. -/
def BatcherState.Inv (st : BatcherState) : Prop :=
  (∀ e ∈ st.batchMap, EntryOk e) ∧ (st.batchMap.map Prod.fst).Nodup ∧
    ∀ b ∈ st.Outbox, SentOk b

/-- A payload of the account with user `a:b` and password `c`. -/
def payloadAbC : Payload :=
  ⟨ascii "web.mean", 1362187200, ascii "1.00000", ascii "web.1", ascii "a:b", ascii "c", none⟩

/-- A payload of the account with user `a` and password `b:c`. -/
def payloadABc : Payload :=
  ⟨ascii "db.mean", 1362187200, ascii "2.00000", ascii "db.1", ascii "a", ascii "b:c", none⟩

/-- The first tuple of a collection whose key is `source` or `host`. -/
def firstSourceOrHost (t : tuples) : Option logTuple :=
  t.find? (fun lt => decide (lt.Key = ascii "source") || decide (lt.Key = ascii "host"))

/-- The first tuple of a collection whose key is `source` and whose value has
exactly five tokens between its dots. -/
def firstFiveTokenSource (t : tuples) : Option logTuple :=
  t.find? (fun lt => decide (lt.Key = ascii "source") &&
    decide ((Split dot lt.Val).length = 5))

/-- The non-empty slices among a list of map entries, in the order of the
list. -/
def nonEmptySlices (m : List (GoBytes × PayloadSlice)) : List PayloadSlice :=
  (m.filter (fun e => decide (e.2.elems.length > 0))).map Prod.snd

/-- A payload of the account with user `u` and password `p`, the one of the
end-to-end scenario. -/
def payloadUP : Payload :=
  ⟨ascii "myapp.response_time.mean", 1362187200, ascii "123.45600", ascii "web.1",
    ascii "u", ascii "p", some ⟨0, ascii "ms"⟩⟩

/-- The runs of the loop of `batch`: `Run grow arrived st` when `st` is reached
from the empty map after the payloads `arrived` were received, in that order,
with ticks in between. -/
inductive Run (grow : Nat → Nat) : List Payload → BatcherState → Prop where
  | init : Run grow [] BatcherState.init
  | payload {arrived : List Payload} {st : BatcherState} (h : Run grow arrived st)
      (p : Payload) : Run grow (arrived ++ [p]) (handlePayload grow st p)
  | tick {arrived : List Payload} {st : BatcherState} (h : Run grow arrived st)
      (order : List (GoBytes × PayloadSlice)) (hp : order.Perm st.batchMap) :
      Run grow arrived (handleTick order st)

/-- The payloads of a list whose grouping key is `k`, in the order of the
list. -/
def withKey (k : GoBytes) (ps : List Payload) : List Payload :=
  ps.filter (fun q => decide (q.index = k))

/-- The slices sent on `Outbox` for the grouping key `k`, those whose payloads
all have the key `k`, concatenated in the order they were sent. -/
def sentFor (k : GoBytes) (outbox : List PayloadSlice) : List Payload :=
  (outbox.filter (fun b => b.elems.all (fun q => decide (q.index = k)))).flatMap
    (fun b => b.elems)

/-- The state of the loop of `batch` after the payloads `payloadUP`, `payloadAbC`
and `payloadUP` have arrived. -/
def stateBeforeTick : BatcherState :=
  handlePayload id
    (handlePayload id (handlePayload id BatcherState.init payloadUP) payloadAbC) payloadUP

/-- The state of the loop of `batch` after `stateBeforeTick`, a tick and one more
arrival of `payloadUP`. -/
def stateAfterRun : BatcherState :=
  handlePayload id (handleTick stateBeforeTick.batchMap stateBeforeTick) payloadUP

/-- An exchange that ends in a response with a status code from 200 to 299. -/
def Exchange.succeeds (ex : Exchange) : Bool :=
  match ex.result with
  | .error _ => false
  | .ok resp => decide (200 ≤ resp.StatusCode ∧ resp.StatusCode ≤ 299)

/-- A network on which every request is answered with the status 500, after the
whole request body was read. -/
def netAlways500 : Nat → Exchange :=
  fun _ => ⟨1000, .ok ⟨500, some (ascii "busy")⟩⟩

/-- A network on which the first two requests are answered with the status 500,
after the whole request body was read, and the later ones with the status
200. -/
def netThird200 : Nat → Exchange :=
  fun n => if n < 2 then ⟨1000, .ok ⟨500, some (ascii "busy")⟩⟩ else ⟨1000, .ok ⟨200, some []⟩⟩

/-- The identity of the bucket of the end-to-end scenario. -/
def sampleId : Id :=
  ⟨ascii "myapp.response_time", ascii "ms", ascii "web.1", ascii "u", ascii "p",
    ⟨1362187200, 0⟩⟩

/-- The mean of a bucket with one value, that value. -/
def singleMean (b : Bucket) : GoFloat := b.Vals.headD .nan

/-- The float64 nearest to 123.456. -/
def f123456 : F64 := ⟨8687443681197687, 46⟩

/-! ## Theorems: the accessors of a tuple collection -/

theorem firstWithKey_eq_none {k : GoBytes} {t : tuples} :
    firstWithKey k t = none ↔ ∀ lt ∈ t, lt.Key ≠ k := by
  simp [firstWithKey, List.find?_eq_none]

theorem firstWithKey_cons (k : GoBytes) (lt : logTuple) (rest : tuples) :
    firstWithKey k (lt :: rest) = if lt.Key = k then some lt else firstWithKey k rest := by
  by_cases h : lt.Key = k <;> simp [firstWithKey, List.find?_cons, h]

/-- The result of `Float64`, in terms of the bytes its loop accumulates. -/
theorem Float64_fst (lt : logTuple) :
    lt.Float64.1 =
      if 0 < (scanDigits (valOrOne lt.Val) false).length
      then ParseFloat (scanDigits (valOrOne lt.Val) false)
      else .error .unableToParseFloat := by
  unfold logTuple.Float64 valOrOne
  by_cases hv : lt.Val = []
  · simp only [hv, List.length_nil, if_true]
    split
    · cases ParseFloat (scanDigits (ascii "1") false) <;> rfl
    · rfl
  · have hl : ¬ lt.Val.length = 0 := fun h => hv (List.length_eq_zero.mp h)
    simp only [hl, hv, if_false]
    split
    · cases ParseFloat (scanDigits lt.Val false) <;> rfl
    · rfl

/-- The receiver after `Float64`: an empty value has become `"1"`. -/
theorem Float64_snd (lt : logTuple) : lt.Float64.2 = ⟨lt.Key, valOrOne lt.Val⟩ := by
  unfold logTuple.Float64 valOrOne
  by_cases hv : lt.Val = []
  · simp only [hv, List.length_nil, if_true]
    split
    · cases ParseFloat (scanDigits (ascii "1") false) <;> rfl
    · rfl
  · have hl : ¬ lt.Val.length = 0 := fun h => hv (List.length_eq_zero.mp h)
    simp only [hl, hv, if_false]
    split
    · cases ParseFloat (scanDigits lt.Val false) <;> rfl
    · rfl

/-- The errors of `ParseFloat` are its syntax and range errors. -/
theorem ParseFloat_error {s : GoBytes} {e : Err} (h : ParseFloat s = .error e) :
    e = .parseSyntax ∨ e = .parseRange := by
  unfold ParseFloat at h
  split at h
  · cases hn : nearestF64 (decimalNat (digitValues s)) (10 ^ fracLen s) with
    | none => rw [hn] at h; right; injection h with h; exact h.symm
    | some f => rw [hn] at h; cases h
  · left; injection h with h; exact h.symm

/-- The method `Float64` never returns the error of `tuples.Value`. -/
theorem Float64_ne_unableToLocateValue (lt : logTuple) :
    lt.Float64.1 ≠ .error .unableToLocateValue := by
  rw [Float64_fst]
  intro h
  split at h
  · rcases ParseFloat_error h with h1 | h1 <;> cases h1
  · cases h

/-- C7. `tuples.Metric` returns the value of the first tuple, in order of
appearance, whose key is `measure`, and the empty string when no tuple has that
key. -/
theorem Metric_first_measure (t : tuples) :
    tuples.Metric t = ((firstWithKey (ascii "measure") t).map logTuple.String).getD [] := by
  induction t with
  | nil => rfl
  | cons lt rest ih =>
    rw [tuples.Metric, firstWithKey_cons]
    by_cases h : lt.Key = ascii "measure"
    · simp [h]
    · simp [h, ih]

/-- C5. `tuples.Value` fails with "Unable to locate value tuple." exactly when no
tuple has key `val`; otherwise its result, number or error, is that of `Float64`
on the first tuple whose key is `val`, whatever follows that tuple. -/
theorem Value_first_val (t : tuples) :
    ((tuples.Value t).1 = .error .unableToLocateValue ↔ ∀ lt ∈ t, lt.Key ≠ ascii "val") ∧
    (tuples.Value t).1 =
      (match firstWithKey (ascii "val") t with
        | none => .error .unableToLocateValue
        | some lt => lt.Float64.1) ∧
    (∀ (pre post other : tuples) (lt : logTuple), t = pre ++ lt :: post →
      (∀ x ∈ pre, x.Key ≠ ascii "val") → lt.Key = ascii "val" →
      (tuples.Value t).1 = lt.Float64.1 ∧
      (tuples.Value (pre ++ lt :: other)).1 = lt.Float64.1) := by
  have key : ∀ u : tuples, (tuples.Value u).1 =
      (match firstWithKey (ascii "val") u with
        | none => .error .unableToLocateValue
        | some lt => lt.Float64.1) := by
    intro u
    induction u with
    | nil => rfl
    | cons lt rest ih =>
      rw [tuples.Value, firstWithKey_cons]
      by_cases h : lt.Key = ascii "val"
      · simp [h]
      · simp [h, ih]
  have pre_skip : ∀ (pre rest : tuples), (∀ x ∈ pre, x.Key ≠ ascii "val") →
      firstWithKey (ascii "val") (pre ++ rest) = firstWithKey (ascii "val") rest := by
    intro pre rest hpre
    induction pre with
    | nil => rfl
    | cons x xs ih =>
      have hx : x.Key ≠ ascii "val" := hpre x (List.mem_cons_self _ _)
      rw [List.cons_append, firstWithKey_cons, if_neg hx]
      exact ih (fun y hy => hpre y (List.mem_cons_of_mem _ hy))
  refine ⟨?_, key t, ?_⟩
  · rw [key t, ← firstWithKey_eq_none]
    cases hfw : firstWithKey (ascii "val") t with
    | none => simp
    | some lt => simpa using Float64_ne_unableToLocateValue lt
  · intro pre post other lt ht hpre hlt
    subst ht
    constructor
    · rw [key, pre_skip pre _ hpre, firstWithKey_cons, if_pos hlt]
    · rw [key, pre_skip pre _ hpre, firstWithKey_cons, if_pos hlt]

/-- Witness of C5 on the line `val=abc val=7`: the first `val` tuple does not
parse and the second one is not looked at. -/
theorem Value_first_val_witness :
    (tuples.Value [⟨ascii "val", ascii "abc"⟩, ⟨ascii "val", ascii "7"⟩]).1 =
      .error .unableToParseFloat ∧
    (tuples.Value [⟨ascii "at", ascii "info"⟩, ⟨ascii "val", ascii "42.5ms"⟩]).1 =
      .ok ⟨85, 1⟩ :=
  ⟨((Value_first_val [⟨ascii "val", ascii "abc"⟩, ⟨ascii "val", ascii "7"⟩]).2.2
      [] [⟨ascii "val", ascii "7"⟩] [] ⟨ascii "val", ascii "abc"⟩ rfl
      (by simp) rfl).1.trans (by decide),
   ((Value_first_val [⟨ascii "at", ascii "info"⟩, ⟨ascii "val", ascii "42.5ms"⟩]).2.2
      [⟨ascii "at", ascii "info"⟩] [] [] ⟨ascii "val", ascii "42.5ms"⟩ rfl
      (by decide) rfl).1.trans (by decide)⟩

/-- The number of tokens `strings.Split` returns is one more than the number of
separators in the string. -/
theorem Split_length (sep : Nat) (s : GoBytes) : (Split sep s).length = s.count sep + 1 := by
  induction s with
  | nil => rfl
  | cons b rest ih =>
    rw [Split]
    by_cases h : b = sep
    · subst h
      simp [ih]
    · rw [if_neg h]
      have hc : (b :: rest).count sep = rest.count sep := by
        rw [List.count_cons]
        simp [h]
      rw [hc]
      cases hs : Split sep rest with
      | nil => rw [hs] at ih; simp at ih
      | cons tok toks => rw [hs] at ih; simpa using ih

/-- C3, counterexample. On the line `host=h source=s` a tuple has key `source`,
yet `tuples.Source` returns the value of the `host` tuple that comes first. -/
theorem Source_host_before_source :
    firstWithKey (ascii "source")
        [⟨ascii "host", ascii "h"⟩, ⟨ascii "source", ascii "s"⟩] =
      some ⟨ascii "source", ascii "s"⟩ ∧
    tuples.Source [⟨ascii "host", ascii "h"⟩, ⟨ascii "source", ascii "s"⟩] = ascii "h" ∧
    tuples.Source [⟨ascii "host", ascii "h"⟩, ⟨ascii "source", ascii "s"⟩] ≠ ascii "s" := by
  decide

/-- C3, amended. `tuples.Source` returns the value of the first tuple whose key is
`source` or `host`, whichever comes first, and the empty string when neither key
occurs. Hence it returns the value of the first `source` tuple when no `host`
tuple precedes it, and the value of the first `host` tuple when no tuple has key
`source`. -/
theorem Source_first_source_or_host (t : tuples) :
    tuples.Source t = ((firstSourceOrHost t).map logTuple.String).getD [] ∧
    (∀ (pre post : tuples) (lt : logTuple), t = pre ++ lt :: post →
      (∀ x ∈ pre, x.Key ≠ ascii "source" ∧ x.Key ≠ ascii "host") →
      lt.Key = ascii "source" → tuples.Source t = lt.Val) ∧
    ((∀ x ∈ t, x.Key ≠ ascii "source") →
      tuples.Source t = ((firstWithKey (ascii "host") t).map logTuple.String).getD []) ∧
    ((∀ x ∈ t, x.Key ≠ ascii "source" ∧ x.Key ≠ ascii "host") → tuples.Source t = []) := by
  refine ⟨?_, ?_, ?_, ?_⟩
  · induction t with
    | nil => rfl
    | cons lt rest ih =>
      rw [tuples.Source]
      by_cases h1 : lt.Key = ascii "source"
      · simp [firstSourceOrHost, List.find?_cons, h1]
      · by_cases h2 : lt.Key = ascii "host"
        · simp [firstSourceOrHost, List.find?_cons, h2]
        · rw [if_neg h1, if_neg h2, ih]
          simp [firstSourceOrHost, List.find?_cons, h1, h2]
  · intro pre post lt ht hpre hlt
    subst ht
    induction pre with
    | nil => simp [tuples.Source, hlt, logTuple.String]
    | cons x xs ih =>
      have hx := hpre x (List.mem_cons_self _ _)
      rw [List.cons_append, tuples.Source, if_neg hx.1, if_neg hx.2]
      exact ih (fun y hy => hpre y (List.mem_cons_of_mem _ hy))
  · intro hno
    induction t with
    | nil => rfl
    | cons lt rest ih =>
      have h1 : lt.Key ≠ ascii "source" := hno lt (List.mem_cons_self _ _)
      rw [tuples.Source, if_neg h1, firstWithKey_cons]
      by_cases h2 : lt.Key = ascii "host"
      · simp [h2]
      · rw [if_neg h2, if_neg h2]
        exact ih (fun y hy => hno y (List.mem_cons_of_mem _ hy))
  · intro hno
    induction t with
    | nil => rfl
    | cons lt rest ih =>
      have h := hno lt (List.mem_cons_self _ _)
      rw [tuples.Source, if_neg h.1, if_neg h.2]
      exact ih (fun y hy => hno y (List.mem_cons_of_mem _ hy))

/-- Witness of C3 on the line `at=info source=web.1 host=h`. -/
theorem Source_first_source_or_host_witness :
    tuples.Source [⟨ascii "at", ascii "info"⟩, ⟨ascii "source", ascii "web.1"⟩,
      ⟨ascii "host", ascii "h"⟩] = ascii "web.1" :=
  (Source_first_source_or_host [⟨ascii "at", ascii "info"⟩, ⟨ascii "source", ascii "web.1"⟩,
      ⟨ascii "host", ascii "h"⟩]).2.1
    [⟨ascii "at", ascii "info"⟩] [⟨ascii "host", ascii "h"⟩] ⟨ascii "source", ascii "web.1"⟩
    rfl (by decide) rfl

/-- C4, counterexample. On the line `source=a.b.c source=a.b.web.1.e` the first
`source` tuple has three tokens, yet `tuples.MetricSource` is not empty: it
returns `web.1`, from the second `source` tuple. -/
theorem MetricSource_skips_short_source :
    firstWithKey (ascii "source")
        [⟨ascii "source", ascii "a.b.c"⟩, ⟨ascii "source", ascii "a.b.web.1.e"⟩] =
      some ⟨ascii "source", ascii "a.b.c"⟩ ∧
    (Split dot (ascii "a.b.c")).length = 3 ∧
    tuples.MetricSource
        [⟨ascii "source", ascii "a.b.c"⟩, ⟨ascii "source", ascii "a.b.web.1.e"⟩] =
      ascii "web.1" := by
  decide

/-- C4, amended. `tuples.MetricSource` is determined by the first tuple whose key
is `source` and whose value split on `'.'` has exactly 5 tokens: the result is
`tokens[2] + "." + tokens[3]` of that tuple, and the empty string when there is
no such tuple. Hence the first `source` tuple decides when it has 5 tokens, and
the result is empty when no tuple has key `source` or no `source` value has 5
tokens. -/
theorem MetricSource_first_five_token_source (t : tuples) :
    tuples.MetricSource t =
      (match firstFiveTokenSource t with
        | none => []
        | some lt =>
          (Split dot lt.Val).getD 2 [] ++ [dot] ++ (Split dot lt.Val).getD 3 []) ∧
    (∀ lt : logTuple, firstWithKey (ascii "source") t = some lt →
      (Split dot lt.Val).length = 5 →
      tuples.MetricSource t =
        (Split dot lt.Val).getD 2 [] ++ [dot] ++ (Split dot lt.Val).getD 3 []) ∧
    ((∀ x ∈ t, x.Key = ascii "source" → (Split dot x.Val).length ≠ 5) →
      tuples.MetricSource t = []) := by
  have join5 : ∀ toks : List GoBytes, toks.length = 5 →
      Join ((toks.drop 2).take 2) [dot] = toks.getD 2 [] ++ [dot] ++ toks.getD 3 [] := by
    intro toks h
    match toks, h with
    | [_, _, c, d, _], _ => simp [Join]
  have key : ∀ u : tuples, tuples.MetricSource u =
      (match firstFiveTokenSource u with
        | none => []
        | some lt =>
          (Split dot lt.Val).getD 2 [] ++ [dot] ++ (Split dot lt.Val).getD 3 []) := by
    intro u
    induction u with
    | nil => rfl
    | cons lt rest ih =>
      rw [tuples.MetricSource]
      by_cases h1 : lt.Key = ascii "source"
      · by_cases h2 : (Split dot lt.Val).length = 5
        · simp [firstFiveTokenSource, List.find?_cons, h1, h2, logTuple.String, join5]
        · simp only [logTuple.String, h1, h2, if_true, if_false]
          rw [ih]
          simp [firstFiveTokenSource, List.find?_cons, h1, h2]
      · rw [if_neg h1, ih]
        simp [firstFiveTokenSource, List.find?_cons, h1]
  refine ⟨key t, ?_, ?_⟩
  · intro lt hfirst h5
    rw [key]
    have : firstFiveTokenSource t = some lt := by
      induction t with
      | nil => simp [firstWithKey] at hfirst
      | cons x xs ih =>
        rw [firstWithKey_cons] at hfirst
        by_cases hx : x.Key = ascii "source"
        · rw [if_pos hx] at hfirst
          cases hfirst
          simp [firstFiveTokenSource, List.find?_cons, hx, h5]
        · rw [if_neg hx] at hfirst
          have := ih hfirst
          simpa [firstFiveTokenSource, List.find?_cons, hx] using this
    rw [this]
  · intro hno
    rw [key]
    have : firstFiveTokenSource t = none := by
      simp only [firstFiveTokenSource, List.find?_eq_none]
      intro x hx
      simp only [Bool.and_eq_true, decide_eq_true_eq, not_and]
      exact hno x hx
    rw [this]

/-- Witness of C4: the 5-segment source `heroku.123.web.1.abcd` yields `web.1`, and
a 3-segment source alone yields the empty string. -/
theorem MetricSource_first_five_token_source_witness :
    tuples.MetricSource [⟨ascii "source", ascii "heroku.123.web.1.abcd"⟩] = ascii "web.1" ∧
    tuples.MetricSource [⟨ascii "source", ascii "a.b.c"⟩] = [] :=
  ⟨((MetricSource_first_five_token_source
        [⟨ascii "source", ascii "heroku.123.web.1.abcd"⟩]).2.1
      ⟨ascii "source", ascii "heroku.123.web.1.abcd"⟩ (by decide) (by decide)).trans
      (by decide),
   (MetricSource_first_five_token_source [⟨ascii "source", ascii "a.b.c"⟩]).2.2 (by decide)⟩

/-! ## Theorems: the float parsing rule -/

theorem isDigit_iff (b : Nat) : isDigit b = true ↔ 48 ≤ b ∧ b ≤ 57 := by
  simp [isDigit]

theorem isDigit_ne_dot {b : Nat} (h : isDigit b = true) : b ≠ dot := by
  rw [isDigit_iff] at h
  unfold dot
  omega

/-- The bytes `Float64` accumulates are a prefix of the value. -/
theorem scanDigits_leading (v : GoBytes) (fd : Bool) : scanDigits v fd <+: v := by
  induction v generalizing fd with
  | nil => simp [scanDigits]
  | cons b rest ih =>
    rw [scanDigits]
    split
    · exact (List.prefix_cons_inj b).mpr (ih true)
    · split
      · exact List.nil_prefix
      · exact (List.prefix_cons_inj b).mpr (ih fd)

/-- The bytes `Float64` accumulates are digits and at most one dot. -/
theorem scanDigits_digitsAndDots (v : GoBytes) (fd : Bool) :
    DigitsAndDots (dotsLeft fd) (scanDigits v fd) := by
  induction v generalizing fd with
  | nil => simp [scanDigits, DigitsAndDots]
  | cons b rest ih =>
    rw [scanDigits]
    split
    · rename_i h
      obtain ⟨hb, hfd⟩ := h
      subst hfd
      obtain ⟨h1, h2⟩ := ih true
      refine ⟨?_, ?_⟩
      · intro c hc
        rcases List.mem_cons.mp hc with rfl | hc
        · exact Or.inr hb
        · exact h1 c hc
      · subst hb
        simp only [dotsLeft] at h2 ⊢
        simp only [List.count_cons_self]
        simpa using h2
    · split
      · simp [DigitsAndDots]
      · rename_i hnd hdig
        have hd : isDigit b = true := by
          rw [isDigit_iff]
          omega
        obtain ⟨h1, h2⟩ := ih fd
        refine ⟨?_, ?_⟩
        · intro c hc
          rcases List.mem_cons.mp hc with rfl | hc
          · exact Or.inl hd
          · exact h1 c hc
        · rw [List.count_cons_of_ne (isDigit_ne_dot hd).symm]
          exact h2

/-- Every prefix of the value made of digits and dots, within the dots still
allowed, lies inside the bytes `Float64` accumulates. -/
theorem scanDigits_maximal (v : GoBytes) (fd : Bool) (q : GoBytes)
    (hq : q <+: v) (hn : DigitsAndDots (dotsLeft fd) q) : q <+: scanDigits v fd := by
  induction v generalizing fd q with
  | nil =>
    have : q = [] := List.prefix_nil.mp hq
    subst this
    exact List.nil_prefix
  | cons b rest ih =>
    cases q with
    | nil => exact List.nil_prefix
    | cons c q1 =>
      obtain ⟨hcb, hq1⟩ := List.cons_prefix_cons.mp hq
      subst hcb
      obtain ⟨h1, h2⟩ := hn
      have hrest : ∀ x ∈ q1, isDigit x = true ∨ x = dot :=
        fun x hx => h1 x (List.mem_cons_of_mem _ hx)
      rw [scanDigits]
      split
      · rename_i h
        obtain ⟨hb, hfd⟩ := h
        subst hfd
        subst hb
        apply (List.prefix_cons_inj _).mpr
        apply ih true q1 hq1
        refine ⟨hrest, ?_⟩
        simp only [dotsLeft, List.count_cons_self] at h2 ⊢
        simpa using h2
      · rename_i hnd
        have hc := h1 c (List.mem_cons_self _ _)
        split
        · rename_i hbad
          exfalso
          rcases hc with hc | hc
          · rw [isDigit_iff] at hc
            omega
          · have hfd : fd = true := by
              cases fd with
              | true => rfl
              | false => exact absurd ⟨hc, rfl⟩ hnd
            subst hfd
            subst hc
            simp [dotsLeft] at h2
        · rename_i hdig
          have hd : isDigit c = true := by
            rw [isDigit_iff]
            omega
          apply (List.prefix_cons_inj _).mpr
          apply ih fd q1 hq1
          refine ⟨hrest, ?_⟩
          rw [List.count_cons_of_ne (isDigit_ne_dot hd).symm] at h2
          exact h2

/-- The bytes `Float64` accumulates are the longest prefix of the value made only
of digits and at most one dot. -/
theorem scanDigits_longest (v : GoBytes) : LongestNumeralPrefix (scanDigits v false) v :=
  ⟨scanDigits_leading v false, scanDigits_digitsAndDots v false,
    fun q hq hn => (scanDigits_maximal v false q hq hn).length_le⟩

/-- The longest numeral prefix is the one `Float64` accumulates. -/
theorem LongestNumeralPrefix.eq_scanDigits {p v : GoBytes} (h : LongestNumeralPrefix p v) :
    p = scanDigits v false := by
  obtain ⟨hp, hn, hmax⟩ := h
  have h1 : p <+: scanDigits v false := scanDigits_maximal v false p hp hn
  have h2 : (scanDigits v false).length ≤ p.length :=
    hmax _ (scanDigits_leading v false) (scanDigits_digitsAndDots v false)
  exact h1.eq_of_length_le h2

/-- The numerals `ParseFloat` accepts are the strings of digits and at most one
dot that hold a digit. -/
theorem isDecimalNumeral_iff (p : GoBytes) :
    isDecimalNumeral p = true ↔ NumeralBytes p ∧ ∃ b ∈ p, isDigit b = true := by
  simp only [isDecimalNumeral, NumeralBytes, Bool.and_eq_true, List.all_eq_true,
    Bool.or_eq_true, beq_iff_eq, decide_eq_true_eq, List.any_eq_true]

/-- A numeral followed by a byte that is neither a digit nor a dot: the numeral
is what `Float64` accumulates. -/
theorem scanDigits_append (n s : GoBytes) (hn : NumeralBytes n)
    (hs : ∀ b ∈ s.head?, isDigit b = false ∧ b ≠ dot) : scanDigits (n ++ s) false = n := by
  symm
  apply LongestNumeralPrefix.eq_scanDigits
  refine ⟨List.prefix_append n s, hn, ?_⟩
  intro q hq hqn
  by_contra hlen
  push_neg at hlen
  cases s with
  | nil =>
    rw [List.append_nil] at hq
    exact absurd hq.length_le (by omega)
  | cons c s1 =>
    have hpre : n ++ [c] <+: q := by
      have h1 : n ++ [c] <+: n ++ c :: s1 := by
        rw [show n ++ c :: s1 = (n ++ [c]) ++ s1 by simp]
        exact List.prefix_append _ _
      exact List.prefix_of_prefix_length_le h1 hq (by simp; omega)
    have hc : c ∈ q := hpre.subset (by simp)
    have hbad := hs c (by simp)
    rcases hqn.1 c hc with h | h
    · rw [hbad.1] at h
      cases h
    · exact hbad.2 h

/-- The result of `Units` in terms of the result of `Float64`. -/
theorem Units_eq (lt : logTuple) :
    lt.Units =
      (match lt.Float64.1 with
        | .error _ => (some [], lt.Float64.2)
        | .ok f =>
          (if (FormatFloatG10 f).length ≤ lt.Float64.2.Val.length
            then some (lt.Float64.2.Val.drop (FormatFloatG10 f).length) else none,
           lt.Float64.2)) := by
  unfold logTuple.Units
  rcases lt.Float64 with ⟨r, lt1⟩
  cases r with
  | error e => rfl
  | ok f =>
    simp only
    split <;> rfl

/-- The result of `Float64` on the longest numeral prefix `p` of the value it
works on: `ParseFloat p` when `p` is not empty. -/
theorem Float64_of_numeral (lt : logTuple) (p : GoBytes)
    (hp : LongestNumeralPrefix p (valOrOne lt.Val)) :
    lt.Float64.1 = if 0 < p.length then ParseFloat p else .error .unableToParseFloat := by
  rw [Float64_fst, ← hp.eq_scanDigits]

/-- C1, counterexample. The value made of `2` followed by 308 zeros is its own
longest numeral prefix and holds a digit, yet `Float64` does not succeed on it:
the number is beyond the float64 range and `ParseFloat` returns its range
error. -/
theorem Float64_range_error :
    LongestNumeralPrefix (50 :: List.replicate 308 48)
      (valOrOne (50 :: List.replicate 308 48)) ∧
    (∃ b ∈ (50 :: List.replicate 308 48 : GoBytes), isDigit b = true) ∧
    (logTuple.Float64 ⟨ascii "val", 50 :: List.replicate 308 48⟩).1 =
      .error .parseRange := by
  refine ⟨?_, ⟨50, List.mem_cons_self _ _, by decide⟩, ?_⟩
  · have h := scanDigits_longest (valOrOne (50 :: List.replicate 308 48))
    have e : scanDigits (valOrOne (50 :: List.replicate 308 48)) false =
        50 :: List.replicate 308 48 := by
      set_option maxRecDepth 100000 in decide
    rw [e] at h
    exact h
  · set_option maxRecDepth 100000 in
    set_option exponentiation.threshold 2000 in
    decide

/-- C1, amended. `Float64` treats an empty value as `"1"` and otherwise takes the
longest prefix `p` of the value made only of digits and at most one `'.'`;
whenever `p` contains a digit and the number it denotes rounds to a finite
float64 `f`, the call succeeds and returns `f`, the float64 nearest to the
base-10 number that `p` denotes. -/
theorem Float64_parsing_rule (lt : logTuple) (p : GoBytes) (f : F64)
    (hp : LongestNumeralPrefix p (valOrOne lt.Val))
    (hd : ∃ b ∈ p, isDigit b = true)
    (hf : nearestF64 (decimalNat (digitValues p)) (10 ^ fracLen p) = some f) :
    lt.Float64.1 = .ok f := by
  rw [Float64_of_numeral lt p hp]
  obtain ⟨b, hb, hbd⟩ := hd
  have hlen : 0 < p.length := List.length_pos_of_mem hb
  rw [if_pos hlen, ParseFloat,
    if_pos ((isDecimalNumeral_iff p).mpr ⟨hp.2.1, ⟨b, hb, hbd⟩⟩), hf]

/-- Witness of C1, the examples of the rule: `""` gives 1, `"42"` gives 42,
`"42.5ms"` gives 42.5 (85/2) and `"3.1.4"` gives the float64 nearest to 3.1
(6980579422424269 / 2^51). -/
theorem Float64_parsing_rule_witness :
    (logTuple.Float64 ⟨ascii "val", ascii ""⟩).1 = .ok ⟨1, 0⟩ ∧
    (logTuple.Float64 ⟨ascii "val", ascii "42"⟩).1 = .ok ⟨42, 0⟩ ∧
    (logTuple.Float64 ⟨ascii "val", ascii "42.5ms"⟩).1 = .ok ⟨85, 1⟩ ∧
    (logTuple.Float64 ⟨ascii "val", ascii "3.1.4"⟩).1 = .ok ⟨6980579422424269, 51⟩ :=
  ⟨Float64_parsing_rule ⟨ascii "val", ascii ""⟩ (ascii "1") ⟨1, 0⟩
      (scanDigits_longest (ascii "1")) ⟨49, by decide, by decide⟩ (by decide),
   Float64_parsing_rule ⟨ascii "val", ascii "42"⟩ (ascii "42") ⟨42, 0⟩
      (scanDigits_longest (ascii "42")) ⟨52, by decide, by decide⟩ (by decide),
   Float64_parsing_rule ⟨ascii "val", ascii "42.5ms"⟩ (ascii "42.5") ⟨85, 1⟩
      (scanDigits_longest (ascii "42.5ms")) ⟨52, by decide, by decide⟩ (by decide),
   Float64_parsing_rule ⟨ascii "val", ascii "3.1.4"⟩ (ascii "3.1") ⟨6980579422424269, 51⟩
      (scanDigits_longest (ascii "3.1.4")) ⟨51, by decide, by decide⟩ (by decide)⟩

/-- C6, counterexample. The non-empty value made of `1` followed by 309 zeros
accumulates a prefix that contains a digit, yet `Float64` returns an error. -/
theorem Float64_error_with_digits :
    (49 :: List.replicate 309 48 : GoBytes) ≠ [] ∧
    LongestNumeralPrefix (49 :: List.replicate 309 48) (49 :: List.replicate 309 48) ∧
    (∃ b ∈ (49 :: List.replicate 309 48 : GoBytes), isDigit b = true) ∧
    (∃ e, (logTuple.Float64 ⟨ascii "val", 49 :: List.replicate 309 48⟩).1 = .error e) := by
  refine ⟨List.cons_ne_nil _ _, ?_, ⟨49, List.mem_cons_self _ _, by decide⟩, ⟨.parseRange, ?_⟩⟩
  · have h := scanDigits_longest (49 :: List.replicate 309 48)
    have e : scanDigits (49 :: List.replicate 309 48) false =
        49 :: List.replicate 309 48 := by
      set_option maxRecDepth 100000 in decide
    rw [e] at h
    exact h
  · set_option maxRecDepth 100000 in
    set_option exponentiation.threshold 2000 in
    decide

/-- C6, amended. With `p` the prefix accumulated from the value (digits and at
most one `'.'`, up to the first other byte), `Float64` returns an error if and
only if the value is non-empty and `p` contains no digit, or the number `p`
denotes is too large to round to a finite float64 (the range error of
`ParseFloat`); in every other case it returns a number and no error. -/
theorem Float64_error_iff (lt : logTuple) (p : GoBytes)
    (hp : LongestNumeralPrefix p lt.Val) :
    ((∃ e, lt.Float64.1 = .error e) ↔
      (lt.Val ≠ [] ∧ ¬ ∃ b ∈ p, isDigit b = true) ∨
        nearestF64 (decimalNat (digitValues p)) (10 ^ fracLen p) = none) ∧
    ((∃ f, lt.Float64.1 = .ok f) ↔
      ¬ ((lt.Val ≠ [] ∧ ¬ ∃ b ∈ p, isDigit b = true) ∨
        nearestF64 (decimalNat (digitValues p)) (10 ^ fracLen p) = none)) := by
  have hval : (∃ f, lt.Float64.1 = .ok f) ↔ ¬ ∃ e, lt.Float64.1 = .error e := by
    cases lt.Float64.1 <;> simp
  have main : (∃ e, lt.Float64.1 = .error e) ↔
      (lt.Val ≠ [] ∧ ¬ ∃ b ∈ p, isDigit b = true) ∨
        nearestF64 (decimalNat (digitValues p)) (10 ^ fracLen p) = none := by
    by_cases hv : lt.Val = []
    · have hpnil : p = [] := by
        have := hp.1
        rw [hv] at this
        exact List.prefix_nil.mp this
      have hres : lt.Float64.1 = .ok ⟨1, 0⟩ := by
        rw [Float64_fst, hv]
        decide
      subst hpnil
      rw [hres]
      constructor
      · rintro ⟨e, he⟩
        cases he
      · rintro (⟨h, _⟩ | h)
        · exact absurd hv h
        · exact absurd h (by decide)
    · have hp1 : LongestNumeralPrefix p (valOrOne lt.Val) := by
        rw [valOrOne, if_neg hv]
        exact hp
      rw [Float64_of_numeral lt p hp1]
      by_cases hd : ∃ b ∈ p, isDigit b = true
      · obtain ⟨b, hb, hbd⟩ := hd
        have hlen : 0 < p.length := List.length_pos_of_mem hb
        rw [if_pos hlen, ParseFloat,
          if_pos ((isDecimalNumeral_iff p).mpr ⟨hp.2.1, ⟨b, hb, hbd⟩⟩)]
        cases hn : nearestF64 (decimalNat (digitValues p)) (10 ^ fracLen p) with
        | none =>
          simp
        | some f =>
          simp only [reduceCtorEq, or_false, exists_false, false_iff, not_and, not_not]
          exact fun _ => ⟨b, hb, hbd⟩
      · have hnum : ¬ isDecimalNumeral p = true := fun h => hd ((isDecimalNumeral_iff p).mp h).2
        have herr : ∃ e, (if 0 < p.length then ParseFloat p
            else Except.error Err.unableToParseFloat) = Except.error e := by
          split
          · exact ⟨.parseSyntax, by rw [ParseFloat, if_neg hnum]⟩
          · exact ⟨_, rfl⟩
        constructor
        · exact fun _ => Or.inl ⟨hv, hd⟩
        · exact fun _ => herr
  exact ⟨main, by rw [hval, main]⟩

/-- Witness of C6: `"abc"`, `"-5"` and `"."` accumulate no digit and fail. -/
theorem Float64_error_iff_witness :
    (∃ e, (logTuple.Float64 ⟨ascii "val", ascii "abc"⟩).1 = .error e) ∧
    (∃ e, (logTuple.Float64 ⟨ascii "val", ascii "-5"⟩).1 = .error e) ∧
    (∃ e, (logTuple.Float64 ⟨ascii "val", ascii "."⟩).1 = .error e) ∧
    (∃ f, (logTuple.Float64 ⟨ascii "val", ascii "7up"⟩).1 = .ok f) :=
  ⟨(Float64_error_iff ⟨ascii "val", ascii "abc"⟩ [] (scanDigits_longest (ascii "abc"))).1.mpr
      (Or.inl ⟨by decide, by simp⟩),
   (Float64_error_iff ⟨ascii "val", ascii "-5"⟩ [] (scanDigits_longest (ascii "-5"))).1.mpr
      (Or.inl ⟨by decide, by simp⟩),
   (Float64_error_iff ⟨ascii "val", ascii "."⟩ (ascii ".")
      (scanDigits_longest (ascii "."))).1.mpr
      (Or.inl ⟨by decide, by decide⟩),
   (Float64_error_iff ⟨ascii "val", ascii "7up"⟩ (ascii "7")
      (scanDigits_longest (ascii "7up"))).2.mpr (by decide)⟩

/-! ## Theorems: units and the frame of `Float64` -/

/-- C2, counterexample. The value `"1.0ms"` is the decimal numeral `"1.0"` followed
by the suffix `"ms"`, yet `Units` returns `".0ms"`: the number 1 is rendered as
`"1"`, one byte long, and only one byte is dropped. -/
theorem Units_not_suffix :
    isDecimalNumeral (ascii "1.0") = true ∧
    (∀ b ∈ (ascii "ms").head?, isDigit b = false ∧ b ≠ dot) ∧
    (logTuple.Units ⟨ascii "val", ascii "1.0" ++ ascii "ms"⟩).1 = some (ascii ".0ms") ∧
    (logTuple.Units ⟨ascii "val", ascii "1.0" ++ ascii "ms"⟩).1 ≠ some (ascii "ms") := by
  decide

/-- C2, amended. For a value that is a decimal numeral `n` (digits with at most
one `'.'`, at least one digit, denoting a number that rounds to the finite float64
`f`) followed by a suffix `s` whose first byte is neither a digit nor `'.'`,
`Units` drops from the value as many leading bytes as the length of `f` rendered
in the `g` format with 10 significant digits (and panics when the value is
shorter than that); so it returns exactly the suffix if and only if the
rendering is as long as the numeral. -/
theorem Units_suffix_rule (k n s : GoBytes) (f : F64)
    (hn : isDecimalNumeral n = true)
    (hs : ∀ b ∈ s.head?, isDigit b = false ∧ b ≠ dot)
    (hf : nearestF64 (decimalNat (digitValues n)) (10 ^ fracLen n) = some f) :
    (logTuple.Units ⟨k, n ++ s⟩).1 =
      (if (FormatFloatG10 f).length ≤ (n ++ s).length
        then some ((n ++ s).drop (FormatFloatG10 f).length) else none) ∧
    ((logTuple.Units ⟨k, n ++ s⟩).1 = some s ↔ (FormatFloatG10 f).length = n.length) := by
  obtain ⟨hnb, b, hb, hbd⟩ := (isDecimalNumeral_iff n).mp hn
  have hne : n ++ s ≠ [] := by
    intro h
    have := (List.append_eq_nil.mp h).1
    rw [this] at hb
    cases hb
  have hval : valOrOne (n ++ s) = n ++ s := by rw [valOrOne, if_neg hne]
  have hscan : scanDigits (n ++ s) false = n := scanDigits_append n s hnb hs
  have hlen : 0 < n.length := List.length_pos_of_mem hb
  have h1 : (logTuple.Float64 ⟨k, n ++ s⟩).1 = .ok f := by
    rw [Float64_fst]
    simp only [hval, hscan, hlen, if_true]
    rw [ParseFloat, if_pos hn, hf]
  have h2 : (logTuple.Float64 ⟨k, n ++ s⟩).2 = ⟨k, n ++ s⟩ := by
    rw [Float64_snd]
    simp only [hval]
  have hU : (logTuple.Units ⟨k, n ++ s⟩).1 =
      (if (FormatFloatG10 f).length ≤ (n ++ s).length
        then some ((n ++ s).drop (FormatFloatG10 f).length) else none) := by
    rw [Units_eq, h1, h2]
  refine ⟨hU, ?_⟩
  rw [hU]
  constructor
  · intro h
    split at h
    · rename_i hle
      have hdrop := Option.some.inj h
      have := congrArg List.length hdrop
      rw [List.length_drop, List.length_append] at this
      rw [List.length_append] at hle
      omega
    · cases h
  · intro h
    rw [h, if_pos (by simp), List.drop_left]

/-- Witness of C2: `"100ms"` gives `"ms"` and `"42.5ms"` gives `"ms"`. -/
theorem Units_suffix_rule_witness :
    (logTuple.Units ⟨ascii "val", ascii "100" ++ ascii "ms"⟩).1 = some (ascii "ms") ∧
    (logTuple.Units ⟨ascii "val", ascii "42.5" ++ ascii "ms"⟩).1 = some (ascii "ms") :=
  ⟨(Units_suffix_rule (ascii "val") (ascii "100") (ascii "ms") ⟨100, 0⟩
      (by decide) (by decide) (by decide)).2.mpr (by decide),
   (Units_suffix_rule (ascii "val") (ascii "42.5") (ascii "ms") ⟨85, 1⟩
      (by decide) (by decide) (by decide)).2.mpr (by decide)⟩

/-- C8, counterexample. On a tuple with an empty value (a bare `measure.hello`)
`Float64` and `Units` replace the value by `"1"`: `String()` returns `""` before
the call and `"1"` after it. -/
theorem Float64_mutates_empty_val :
    (⟨ascii "measure.hello", []⟩ : logTuple).String = [] ∧
    (logTuple.Float64 ⟨ascii "measure.hello", []⟩).2.String = ascii "1" ∧
    (logTuple.Units ⟨ascii "measure.hello", []⟩).2.String = ascii "1" ∧
    (logTuple.Float64 ⟨ascii "measure.hello", []⟩).2.String ≠
      (⟨ascii "measure.hello", []⟩ : logTuple).String := by
  decide

/-- C8, amended. Calling `Float64` or `Units` leaves the key of a tuple as it was,
so `Name()` returns the same string before and after; it leaves a non-empty
value as it was, so `String()` returns the same string then, and it replaces an
empty value by `"1"`. -/
theorem Float64_Units_frame (lt : logTuple) :
    lt.Float64.2.Name = lt.Name ∧ lt.Units.2.Name = lt.Name ∧
    (lt.Val ≠ [] → lt.Float64.2 = lt ∧ lt.Units.2 = lt ∧
      lt.Float64.2.String = lt.String ∧ lt.Units.2.String = lt.String) ∧
    (lt.Val = [] → lt.Float64.2.String = ascii "1" ∧ lt.Units.2.String = ascii "1") := by
  have hU : lt.Units.2 = lt.Float64.2 := by
    rw [Units_eq]
    cases lt.Float64.1 <;> rfl
  rw [hU, Float64_snd]
  refine ⟨rfl, rfl, ?_, ?_⟩
  · intro hv
    have : (⟨lt.Key, valOrOne lt.Val⟩ : logTuple) = lt := by
      rw [valOrOne, if_neg hv]
    rw [this]
    exact ⟨rfl, rfl, rfl, rfl⟩
  · intro hv
    simp [logTuple.String, valOrOne, hv]

/-- Witness of C8 on the tuple `val=42.5ms`. -/
theorem Float64_Units_frame_witness :
    (logTuple.Float64 ⟨ascii "val", ascii "42.5ms"⟩).2 = ⟨ascii "val", ascii "42.5ms"⟩ ∧
    (logTuple.Units ⟨ascii "val", ascii "42.5ms"⟩).2 = ⟨ascii "val", ascii "42.5ms"⟩ :=
  ⟨((Float64_Units_frame ⟨ascii "val", ascii "42.5ms"⟩).2.2.1 (by decide)).1,
   ((Float64_Units_frame ⟨ascii "val", ascii "42.5ms"⟩).2.2.1 (by decide)).2.1⟩

/-! ## Theorems: the batching loop -/

theorem BatchMap.get?_cons (e : GoBytes × PayloadSlice) (m : BatchMap) (k : GoBytes) :
    BatchMap.get? (e :: m) k = if e.1 = k then some e.2 else BatchMap.get? m k := by
  by_cases h : e.1 = k <;> simp [BatchMap.get?, List.find?_cons, h]

theorem BatchMap.get?_delete_self (m : BatchMap) (k : GoBytes) :
    BatchMap.get? (BatchMap.delete m k) k = none := by
  induction m with
  | nil => rfl
  | cons e m ih =>
    by_cases h : e.1 = k
    · simpa [BatchMap.delete, List.filter_cons, h] using ih
    · have : BatchMap.delete (e :: m) k = e :: BatchMap.delete m k := by
        simp [BatchMap.delete, List.filter_cons, h]
      rw [this, BatchMap.get?_cons, if_neg h, ih]

theorem BatchMap.get?_delete_ne (m : BatchMap) {k k1 : GoBytes} (hk : k1 ≠ k) :
    BatchMap.get? (BatchMap.delete m k) k1 = BatchMap.get? m k1 := by
  induction m with
  | nil => rfl
  | cons e m ih =>
    by_cases h : e.1 = k
    · have hd : BatchMap.delete (e :: m) k = BatchMap.delete m k := by
        simp [BatchMap.delete, List.filter_cons, h]
      have hne : ¬ e.1 = k1 := fun h1 => hk (h1.symm.trans h)
      rw [hd, ih, BatchMap.get?_cons, if_neg hne]
    · have hd : BatchMap.delete (e :: m) k = e :: BatchMap.delete m k := by
        simp [BatchMap.delete, List.filter_cons, h]
      rw [hd, BatchMap.get?_cons, BatchMap.get?_cons, ih]

theorem BatchMap.get?_set_self (m : BatchMap) (k : GoBytes) (v : PayloadSlice) :
    BatchMap.get? (BatchMap.set m k v) k = some v := by
  rw [BatchMap.set, BatchMap.get?_cons, if_pos rfl]

theorem BatchMap.get?_set_ne (m : BatchMap) (v : PayloadSlice) {k k1 : GoBytes}
    (hk : k1 ≠ k) : BatchMap.get? (BatchMap.set m k v) k1 = BatchMap.get? m k1 := by
  rw [BatchMap.set, BatchMap.get?_cons, if_neg (fun h => hk h.symm),
    BatchMap.get?_delete_ne m hk]

theorem BatchMap.mem_of_get? {m : BatchMap} {k : GoBytes} {v : PayloadSlice}
    (h : BatchMap.get? m k = some v) : (k, v) ∈ m := by
  induction m with
  | nil => cases h
  | cons e m ih =>
    rw [BatchMap.get?_cons] at h
    by_cases he : e.1 = k
    · rw [if_pos he] at h
      have hv : e.2 = v := Option.some.inj h
      have : e = (k, v) := Prod.ext he hv
      rw [this]
      exact List.mem_cons_self _ _
    · rw [if_neg he] at h
      exact List.mem_cons_of_mem _ (ih h)

theorem BatchMap.mem_delete {m : BatchMap} {k : GoBytes} {e : GoBytes × PayloadSlice} :
    e ∈ BatchMap.delete m k ↔ e ∈ m ∧ e.1 ≠ k := by
  simp [BatchMap.delete, List.mem_filter]

theorem BatchMap.nodup_delete {m : BatchMap} (k : GoBytes)
    (h : (m.map Prod.fst).Nodup) : ((BatchMap.delete m k).map Prod.fst).Nodup :=
  h.sublist ((List.filter_sublist m).map Prod.fst)

theorem BatchMap.nodup_set {m : BatchMap} (k : GoBytes) (v : PayloadSlice)
    (h : (m.map Prod.fst).Nodup) : ((BatchMap.set m k v).map Prod.fst).Nodup := by
  rw [BatchMap.set, List.map_cons, List.nodup_cons]
  refine ⟨?_, BatchMap.nodup_delete k h⟩
  intro hmem
  obtain ⟨e, he, hek⟩ := List.mem_map.mp hmem
  exact (BatchMap.mem_delete.mp he).2 hek

/-- The arrival of a payload whose grouping key is not in the map. -/
theorem handlePayload_absent (grow : Nat → Nat) (st : BatcherState) (p : Payload)
    (h : st.batchMap.get? p.index = none) :
    handlePayload grow st p =
      ⟨st.batchMap.set p.index ⟨[p], 300⟩, st.Outbox⟩ := by
  unfold handlePayload
  simp only [h, BatchMap.index, BatchMap.get?_set_self, Option.getD_some]
  simp

/-- The arrival of a payload whose grouping key has a slice with room left. -/
theorem handlePayload_present (grow : Nat → Nat) (st : BatcherState) (p : Payload)
    (s : PayloadSlice) (h : st.batchMap.get? p.index = some s) (hc : s.cap = 300)
    (hl : s.elems.length < 300) :
    handlePayload grow st p =
      if s.elems.length = 299 then
        ⟨(st.batchMap.set p.index ⟨s.elems ++ [p], 300⟩).delete p.index,
          st.Outbox ++ [⟨s.elems ++ [p], 300⟩]⟩
      else ⟨st.batchMap.set p.index ⟨s.elems ++ [p], 300⟩, st.Outbox⟩ := by
  have happ : s.append grow p = ⟨s.elems ++ [p], 300⟩ := by
    rw [PayloadSlice.append, hc, if_pos hl]
  unfold handlePayload
  simp only [h, BatchMap.index, BatchMap.get?_set_self, Option.getD_some, happ,
    List.length_append, List.length_singleton]
  by_cases h299 : s.elems.length = 299
  · simp [h299]
  · have : ¬ s.elems.length + 1 = 300 := by omega
    simp [h299, this]

/-- The invariant survives the arrival of a payload. -/
theorem handlePayload_inv (grow : Nat → Nat) (st : BatcherState) (p : Payload)
    (hinv : st.Inv) : (handlePayload grow st p).Inv := by
  obtain ⟨hent, hnd, hout⟩ := hinv
  have hset : ∀ v : PayloadSlice, EntryOk (p.index, v) →
      ∀ e ∈ st.batchMap.set p.index v, EntryOk e := by
    intro v hv e he
    rcases List.mem_cons.mp he with rfl | he
    · exact hv
    · exact hent e (BatchMap.mem_delete.mp he).1
  cases hget : st.batchMap.get? p.index with
  | none =>
    rw [handlePayload_absent grow st p hget]
    refine ⟨hset _ ⟨rfl, by simp, by simp, ?_⟩, BatchMap.nodup_set _ _ hnd, hout⟩
    intro q hq
    rw [List.mem_singleton.mp hq]
  | some s =>
    obtain ⟨hc, hpos, hl, hidx⟩ := hent _ (BatchMap.mem_of_get? hget)
    simp only at hc hpos hl hidx
    have hidx1 : ∀ q ∈ s.elems ++ [p], q.index = p.index := by
      intro q hq
      rcases List.mem_append.mp hq with hq | hq
      · exact hidx q hq
      · rw [List.mem_singleton.mp hq]
    rw [handlePayload_present grow st p s hget hc hl]
    by_cases h299 : s.elems.length = 299
    · rw [if_pos h299]
      refine ⟨?_, BatchMap.nodup_delete _ (BatchMap.nodup_set _ _ hnd), ?_⟩
      · intro e he
        obtain ⟨he1, hne⟩ := BatchMap.mem_delete.mp he
        rcases List.mem_cons.mp he1 with rfl | he2
        · exact absurd rfl hne
        · exact hent e (BatchMap.mem_delete.mp he2).1
      · intro b hb
        rcases List.mem_append.mp hb with hb | hb
        · exact hout b hb
        · rw [List.mem_singleton.mp hb]
          exact ⟨by simp, by simp; omega, p.index, hidx1⟩
    · rw [if_neg h299]
      refine ⟨hset _ ⟨rfl, by simp, ?_, hidx1⟩, BatchMap.nodup_set _ _ hnd, hout⟩
      simp only [List.length_append, List.length_singleton]
      omega

/-- The invariant survives a tick, whatever entries the range produces, as long
as they are entries the map could hold. -/
theorem handleTick_inv (order : List (GoBytes × PayloadSlice)) (st : BatcherState)
    (hord : ∀ e ∈ order, EntryOk e) (hinv : st.Inv) : (handleTick order st).Inv := by
  induction order generalizing st with
  | nil => exact hinv
  | cons e rest ih =>
    obtain ⟨k, v⟩ := e
    rw [handleTick]
    apply ih _ (fun x hx => hord x (List.mem_cons_of_mem _ hx))
    obtain ⟨hent, hnd, hout⟩ := hinv
    refine ⟨fun x hx => hent x (BatchMap.mem_delete.mp hx).1, BatchMap.nodup_delete _ hnd, ?_⟩
    obtain ⟨_, hpos, hl, hidx⟩ := hord (k, v) (List.mem_cons_self _ _)
    rw [if_pos hpos]
    intro b hb
    rcases List.mem_append.mp hb with hb | hb
    · exact hout b hb
    · rw [List.mem_singleton.mp hb]
      exact ⟨hpos, Nat.le_of_lt hl, k, hidx⟩

/-- Every state of the loop of `batch` satisfies the invariant. -/
theorem Reachable.inv {grow : Nat → Nat} {st : BatcherState} (h : Reachable grow st) :
    st.Inv := by
  induction h with
  | init => exact ⟨by simp [BatcherState.init], by simp [BatcherState.init],
      by simp [BatcherState.init]⟩
  | step _ hs ih =>
    cases hs with
    | payload p => exact handlePayload_inv grow _ p ih
    | tick order hperm =>
      exact handleTick_inv order _ (fun e he => ih.1 e (hperm.subset he)) ih

/-- A run of payload arrivals leads from a state of the loop to a state of the
loop. -/
theorem Reachable.foldl {grow : Nat → Nat} (ps : List Payload) {st : BatcherState}
    (h : Reachable grow st) : Reachable grow (ps.foldl (handlePayload grow) st) := by
  induction ps generalizing st with
  | nil => exact h
  | cons p ps ih => exact ih (Reachable.step h (Step.payload st p))

/-- C10. In a state of the loop of `batch`, for an arriving payload with grouping
key `k`: the slice held for `k` has at most 299 payloads; if it has 299, the
arrival sends exactly one slice on `Outbox`, made of those 299 payloads followed
by the new one, and `k` is no longer in the map; if it has fewer, or `k` is
absent, nothing is sent and the slice for `k` becomes the old one with the new
payload appended (the new payload alone when `k` was absent). The entries of the
other keys are unchanged in every case. -/
theorem capacity_trigger (grow : Nat → Nat) (st : BatcherState)
    (h : Reachable grow st) (p : Payload) :
    (∀ s, st.batchMap.get? p.index = some s → s.elems.length ≤ 299) ∧
    (∀ s, st.batchMap.get? p.index = some s → s.elems.length = 299 →
      (handlePayload grow st p).Outbox = st.Outbox ++ [⟨s.elems ++ [p], 300⟩] ∧
      (s.elems ++ [p]).length = 300 ∧
      (handlePayload grow st p).batchMap.get? p.index = none) ∧
    (∀ s, st.batchMap.get? p.index = some s → s.elems.length < 299 →
      (handlePayload grow st p).Outbox = st.Outbox ∧
      (handlePayload grow st p).batchMap.get? p.index = some ⟨s.elems ++ [p], 300⟩) ∧
    (st.batchMap.get? p.index = none →
      (handlePayload grow st p).Outbox = st.Outbox ∧
      (handlePayload grow st p).batchMap.get? p.index = some ⟨[p], 300⟩) ∧
    (∀ k, k ≠ p.index →
      (handlePayload grow st p).batchMap.get? k = st.batchMap.get? k) := by
  have hinv := h.inv
  have hentry : ∀ s, st.batchMap.get? p.index = some s →
      s.cap = 300 ∧ s.elems.length < 300 := by
    intro s hs
    obtain ⟨hc, _, hl, _⟩ := hinv.1 _ (BatchMap.mem_of_get? hs)
    exact ⟨hc, hl⟩
  refine ⟨?_, ?_, ?_, ?_, ?_⟩
  · intro s hs
    have := (hentry s hs).2
    omega
  · intro s hs h299
    rw [handlePayload_present grow st p s hs (hentry s hs).1 (hentry s hs).2, if_pos h299]
    exact ⟨rfl, by simp [h299], BatchMap.get?_delete_self _ _⟩
  · intro s hs hlt
    rw [handlePayload_present grow st p s hs (hentry s hs).1 (hentry s hs).2,
      if_neg (by omega)]
    exact ⟨rfl, BatchMap.get?_set_self _ _ _⟩
  · intro hnone
    rw [handlePayload_absent grow st p hnone]
    exact ⟨rfl, BatchMap.get?_set_self _ _ _⟩
  · intro k hk
    cases hget : st.batchMap.get? p.index with
    | none =>
      rw [handlePayload_absent grow st p hget]
      exact BatchMap.get?_set_ne _ _ hk
    | some s =>
      rw [handlePayload_present grow st p s hget (hentry s hget).1 (hentry s hget).2]
      split
      · rw [BatchMap.get?_delete_ne _ hk]
        exact BatchMap.get?_set_ne _ _ hk
      · exact BatchMap.get?_set_ne _ _ hk

/-- After `n + 1` arrivals of one payload, for `n < 299`, the map holds one slice
with these `n + 1` payloads and nothing has been sent. -/
theorem foldl_replicate (grow : Nat → Nat) (p : Payload) (n : Nat) (hn : n < 299) :
    (List.replicate (n + 1) p).foldl (handlePayload grow) BatcherState.init =
      ⟨[(p.index, ⟨List.replicate (n + 1) p, 300⟩)], []⟩ := by
  induction n with
  | zero =>
    simp only [List.replicate, List.foldl]
    rw [handlePayload_absent grow BatcherState.init p rfl]
    rfl
  | succ n ih =>
    rw [List.replicate_succ', List.foldl_append, ih (by omega)]
    simp only [List.foldl]
    rw [handlePayload_present grow _ p ⟨List.replicate (n + 1) p, 300⟩
      (by rw [BatchMap.get?_cons, if_pos rfl]) rfl (by simp; omega)]
    rw [if_neg (by simp; omega)]
    simp [BatchMap.set, BatchMap.delete, List.replicate_succ' (n + 1)]

/-- Witness of C10: after 299 arrivals of one payload the state is a state of the
loop whose slice holds 299 payloads; the 300th arrival sends the 300 payloads
as one slice and removes the key from the map. -/
theorem capacity_trigger_witness :
    (handlePayload id
        ((List.replicate 299 payloadAbC).foldl (handlePayload id) BatcherState.init)
        payloadAbC).Outbox =
      [⟨List.replicate 299 payloadAbC ++ [payloadAbC], 300⟩] ∧
    (handlePayload id
        ((List.replicate 299 payloadAbC).foldl (handlePayload id) BatcherState.init)
        payloadAbC).batchMap.get? payloadAbC.index = none := by
  have hst := foldl_replicate id payloadAbC 298 (by omega)
  have h := (capacity_trigger id _
    (Reachable.foldl (List.replicate 299 payloadAbC) Reachable.init) payloadAbC).2.1
    ⟨List.replicate 299 payloadAbC, 300⟩
    (by rw [hst, BatchMap.get?_cons, if_pos rfl]) (List.length_replicate _ _)
  rw [hst] at h ⊢
  exact ⟨h.1, h.2.2⟩

/-- The grouping key separates two credentials whose users hold no `':'`. -/
theorem index_eq_of_no_colon (u1 u2 p1 p2 : GoBytes) (h1 : colon ∉ u1) (h2 : colon ∉ u2)
    (h : u1 ++ [colon] ++ p1 = u2 ++ [colon] ++ p2) : u1 = u2 ∧ p1 = p2 := by
  induction u1 generalizing u2 with
  | nil =>
    cases u2 with
    | nil => exact ⟨rfl, by simpa using h⟩
    | cons y u2 =>
      exfalso
      simp only [List.nil_append, List.cons_append, List.singleton_append,
        List.cons.injEq] at h
      exact h2 (by rw [← h.1]; exact List.mem_cons_self _ _)
  | cons x u1 ih =>
    cases u2 with
    | nil =>
      exfalso
      simp only [List.nil_append, List.cons_append, List.singleton_append,
        List.cons.injEq] at h
      exact h1 (by rw [h.1]; exact List.mem_cons_self _ _)
    | cons y u2 =>
      simp only [List.cons_append, List.cons.injEq] at h
      obtain ⟨hxy, hrest⟩ := h
      obtain ⟨hu, hp⟩ := ih u2 (fun hm => h1 (List.mem_cons_of_mem _ hm))
        (fun hm => h2 (List.mem_cons_of_mem _ hm)) hrest
      exact ⟨by rw [hxy, hu], hp⟩

/-- What the batcher does guarantee: the payloads of a slice sent on `Outbox`
share their grouping key, hence their user and password whenever no user holds
a `':'`. -/
theorem outbox_same_index (grow : Nat → Nat) (st : BatcherState) (h : Reachable grow st)
    (b : PayloadSlice) (hb : b ∈ st.Outbox) (p q : Payload)
    (hp : p ∈ b.elems) (hq : q ∈ b.elems) :
    p.index = q.index ∧
    (colon ∉ p.User → colon ∉ q.User → p.User = q.User ∧ p.Pass = q.Pass) := by
  obtain ⟨_, _, k, hk⟩ := h.inv.2.2 b hb
  have hidx : p.index = q.index := (hk p hp).trans (hk q hq).symm
  exact ⟨hidx, fun h1 h2 => index_eq_of_no_colon _ _ _ _ h1 h2 hidx⟩

/-- C9, the code on the failing input. A payload of user `a:b` with password `c`
and a payload of user `a` with password `b:c` have the same grouping key
`a:b:c`; when they arrive one after the other and the ticker fires, `batch`
sends both in one slice, whatever the growth policy of `append`: a batch on
`Outbox` with two different users and two different passwords. -/
theorem batch_mixes_credentials :
    payloadAbC.index = payloadABc.index ∧
    payloadAbC.User ≠ payloadABc.User ∧ payloadAbC.Pass ≠ payloadABc.Pass ∧
    (∀ grow : Nat → Nat,
      handleTick
          (handlePayload grow (handlePayload grow BatcherState.init payloadAbC)
            payloadABc).batchMap
          (handlePayload grow (handlePayload grow BatcherState.init payloadAbC)
            payloadABc) =
        ⟨[], [⟨[payloadAbC, payloadABc], 300⟩]⟩ ∧
      Reachable grow ⟨[], [⟨[payloadAbC, payloadABc], 300⟩]⟩) := by
  refine ⟨by decide, by decide, by decide, fun grow => ?_⟩
  have hrun : handleTick
      (handlePayload grow (handlePayload grow BatcherState.init payloadAbC)
        payloadABc).batchMap
      (handlePayload grow (handlePayload grow BatcherState.init payloadAbC)
        payloadABc) =
      ⟨[], [⟨[payloadAbC, payloadABc], 300⟩]⟩ := rfl
  refine ⟨hrun, ?_⟩
  rw [← hrun]
  exact Reachable.step
    (Reachable.step (Reachable.step Reachable.init (Step.payload _ payloadAbC))
      (Step.payload _ payloadABc))
    (Step.tick _ _ (List.Perm.refl _))

/-! ## Theorems: the time trigger -/

/-- After a tick the map holds the entries whose key the range did not produce. -/
theorem handleTick_batchMap (order : List (GoBytes × PayloadSlice)) (st : BatcherState) :
    (handleTick order st).batchMap =
      st.batchMap.filter (fun e => decide (e.1 ∉ order.map Prod.fst)) := by
  induction order generalizing st with
  | nil => simp [handleTick]
  | cons e rest ih =>
    obtain ⟨k, v⟩ := e
    rw [handleTick, ih]
    simp only [BatchMap.delete, List.filter_filter, List.map_cons, List.mem_cons, not_or]
    congr 1
    funext x
    by_cases h1 : x.1 = k <;> by_cases h2 : x.1 ∈ rest.map Prod.fst <;> simp [h1, h2]

/-- A tick sends the non-empty slices the range produces, in that order. -/
theorem handleTick_Outbox (order : List (GoBytes × PayloadSlice)) (st : BatcherState) :
    (handleTick order st).Outbox = st.Outbox ++ nonEmptySlices order := by
  induction order generalizing st with
  | nil => simp [handleTick, nonEmptySlices]
  | cons e rest ih =>
    obtain ⟨k, v⟩ := e
    rw [handleTick, ih]
    by_cases h : v.elems.length > 0
    · simp [nonEmptySlices, List.filter_cons, h]
    · simp [nonEmptySlices, List.filter_cons, h]

/-- After a tick that ranges over the whole map, the map is empty. -/
theorem handleTick_batchMap_nil (st : BatcherState) (order : List (GoBytes × PayloadSlice))
    (h : order.Perm st.batchMap) : (handleTick order st).batchMap = [] := by
  rw [handleTick_batchMap, List.filter_eq_nil_iff]
  intro e he
  have : e.1 ∈ order.map Prod.fst := List.mem_map_of_mem _ (h.symm.subset he)
  simp [this]

/-- C11. Handling one timer tick, whatever the order in which the map is ranged
over, sends each non-empty slice of the map on `Outbox` exactly once (the slices
sent are a permutation of the non-empty slices of the map) and leaves the map
empty; a second tick with no arrival in between sends nothing and leaves the
map empty. -/
theorem tick_full_flush (st : BatcherState) (order : List (GoBytes × PayloadSlice))
    (h : order.Perm st.batchMap) :
    (handleTick order st).batchMap = [] ∧
    (handleTick order st).Outbox = st.Outbox ++ nonEmptySlices order ∧
    (nonEmptySlices order).Perm (nonEmptySlices st.batchMap) ∧
    (∀ order2 : List (GoBytes × PayloadSlice), order2.Perm (handleTick order st).batchMap →
      handleTick order2 (handleTick order st) = handleTick order st) := by
  have hempty : (handleTick order st).batchMap = [] := handleTick_batchMap_nil st order h
  refine ⟨hempty, handleTick_Outbox order st, ?_, ?_⟩
  · exact (h.filter _).map _
  · intro order2 h2
    rw [hempty] at h2
    rw [List.Perm.eq_nil h2]
    rfl

/-- Witness of C11: a map with a slice for `a:b:c` and a slice for `u:p`, ranged
over in the reverse of the order of its entries. Both slices are sent, the map
is empty, and a second tick changes nothing. -/
theorem tick_full_flush_witness :
    handleTick
        [(payloadUP.index, ⟨[payloadUP], 300⟩), (payloadAbC.index, ⟨[payloadAbC], 300⟩)]
        ⟨[(payloadAbC.index, ⟨[payloadAbC], 300⟩), (payloadUP.index, ⟨[payloadUP], 300⟩)], []⟩ =
      ⟨[], [⟨[payloadUP], 300⟩, ⟨[payloadAbC], 300⟩]⟩ ∧
    handleTick []
        (handleTick
          [(payloadUP.index, ⟨[payloadUP], 300⟩), (payloadAbC.index, ⟨[payloadAbC], 300⟩)]
          ⟨[(payloadAbC.index, ⟨[payloadAbC], 300⟩), (payloadUP.index, ⟨[payloadUP], 300⟩)],
            []⟩) =
      ⟨[], [⟨[payloadUP], 300⟩, ⟨[payloadAbC], 300⟩]⟩ := by
  have h := tick_full_flush
    ⟨[(payloadAbC.index, ⟨[payloadAbC], 300⟩), (payloadUP.index, ⟨[payloadUP], 300⟩)], []⟩
    [(payloadUP.index, ⟨[payloadUP], 300⟩), (payloadAbC.index, ⟨[payloadAbC], 300⟩)]
    (List.Perm.swap _ _ _)
  have h1 : handleTick
      [(payloadUP.index, ⟨[payloadUP], 300⟩), (payloadAbC.index, ⟨[payloadAbC], 300⟩)]
      ⟨[(payloadAbC.index, ⟨[payloadAbC], 300⟩), (payloadUP.index, ⟨[payloadUP], 300⟩)], []⟩ =
      ⟨[], [⟨[payloadUP], 300⟩, ⟨[payloadAbC], 300⟩]⟩ := by
    have e1 := h.1
    have e2 := h.2.1
    cases hst : handleTick
      [(payloadUP.index, ⟨[payloadUP], 300⟩), (payloadAbC.index, ⟨[payloadAbC], 300⟩)]
      ⟨[(payloadAbC.index, ⟨[payloadAbC], 300⟩), (payloadUP.index, ⟨[payloadUP], 300⟩)], []⟩
    rw [hst] at e1 e2
    simp only at e1 e2
    rw [e1, e2]
    rfl
  refine ⟨h1, ?_⟩
  have h2 := h.2.2.2 [] (by rw [h.1])
  rw [h2, h1]

/-! ## Theorems: conservation and size bounds of the batcher -/

/-- A run ends in a state of the loop. -/
theorem Run.reachable {grow : Nat → Nat} {arrived : List Payload} {st : BatcherState}
    (h : Run grow arrived st) : Reachable grow st := by
  induction h with
  | init => exact Reachable.init
  | payload _ p ih => exact Reachable.step ih (Step.payload _ p)
  | tick _ order hp ih => exact Reachable.step ih (Step.tick _ order hp)

theorem BatchMap.index_of_get?_none {m : BatchMap} {k : GoBytes}
    (h : BatchMap.get? m k = none) : (BatchMap.index m k).elems = [] := by
  simp [BatchMap.index, h]

theorem BatchMap.index_of_get?_some {m : BatchMap} {k : GoBytes} {v : PayloadSlice}
    (h : BatchMap.get? m k = some v) : BatchMap.index m k = v := by
  simp [BatchMap.index, h]

/-- In a map with distinct keys an entry is what the index expression finds. -/
theorem BatchMap.get?_of_mem {m : BatchMap} (hnd : (m.map Prod.fst).Nodup)
    {k : GoBytes} {v : PayloadSlice} (h : (k, v) ∈ m) : BatchMap.get? m k = some v := by
  induction m with
  | nil => cases h
  | cons e m ih =>
    rw [List.map_cons, List.nodup_cons] at hnd
    rw [BatchMap.get?_cons]
    rcases List.mem_cons.mp h with h1 | h1
    · rw [← h1]
      simp
    · by_cases he : e.1 = k
      · exfalso
        apply hnd.1
        rw [he]
        exact List.mem_map_of_mem Prod.fst h1
      · rw [if_neg he]
        exact ih hnd.2 h1

/-- The index expression does not depend on the order of the entries. -/
theorem BatchMap.get?_perm {m order : BatchMap} (hnd : (m.map Prod.fst).Nodup)
    (hp : order.Perm m) (k : GoBytes) : BatchMap.get? order k = BatchMap.get? m k := by
  have hnd2 : (order.map Prod.fst).Nodup := (hp.map Prod.fst).nodup_iff.mpr hnd
  cases h1 : BatchMap.get? order k with
  | some v =>
    exact (BatchMap.get?_of_mem hnd (hp.subset (BatchMap.mem_of_get? h1))).symm
  | none =>
    cases h2 : BatchMap.get? m k with
    | none => rfl
    | some v =>
      have := BatchMap.get?_of_mem hnd2 (hp.symm.subset (BatchMap.mem_of_get? h2))
      rw [h1] at this
      cases this

theorem withKey_append (k : GoBytes) (a b : List Payload) :
    withKey k (a ++ b) = withKey k a ++ withKey k b := by
  simp [withKey]

theorem withKey_of_all {k : GoBytes} {ps : List Payload} (h : ∀ q ∈ ps, q.index = k) :
    withKey k ps = ps := by
  rw [withKey, List.filter_eq_self]
  intro q hq
  simp [h q hq]

theorem withKey_of_none {k k1 : GoBytes} {ps : List Payload} (h : ∀ q ∈ ps, q.index = k1)
    (hk : k1 ≠ k) : withKey k ps = [] := by
  rw [withKey, List.filter_eq_nil_iff]
  intro q hq
  simp [h q hq, hk]

/-- The slices sent for a key, concatenated, are the payloads of that key among
all the payloads sent, when every slice sent has one key. -/
theorem sentFor_eq_withKey (k : GoBytes) (outbox : List PayloadSlice)
    (h : ∀ b ∈ outbox, ∃ k1 : GoBytes, ∀ q ∈ b.elems, q.index = k1) :
    sentFor k outbox = withKey k (outbox.flatMap (fun b => b.elems)) := by
  induction outbox with
  | nil => rfl
  | cons b rest ih =>
    have ih1 := ih (fun c hc => h c (List.mem_cons_of_mem _ hc))
    rw [sentFor] at ih1 ⊢
    rw [List.flatMap_cons, withKey_append, ← ih1, List.filter_cons]
    obtain ⟨k1, hk1⟩ := h b (List.mem_cons_self _ _)
    by_cases hall : (b.elems.all fun q => decide (q.index = k)) = true
    · rw [if_pos hall, List.flatMap_cons]
      congr 1
      symm
      apply withKey_of_all
      intro q hq
      simpa using (List.all_eq_true.mp hall) q hq
    · rw [if_neg hall]
      have hne : k1 ≠ k := by
        intro hk
        apply hall
        rw [List.all_eq_true]
        intro q hq
        simp [hk1 q hq, hk]
      rw [withKey_of_none hk1 hne, List.nil_append]

/-- The payloads of the non-empty slices are the payloads of all the slices. -/
theorem nonEmptySlices_flatMap (m : List (GoBytes × PayloadSlice)) :
    (nonEmptySlices m).flatMap (fun b => b.elems) = m.flatMap (fun e => e.2.elems) := by
  induction m with
  | nil => rfl
  | cons e m ih =>
    rw [nonEmptySlices] at ih ⊢
    rw [List.filter_cons, List.flatMap_cons]
    by_cases h : e.2.elems.length > 0
    · simp only [h, decide_True, if_true, List.map_cons, List.flatMap_cons, ih]
    · have hnil : e.2.elems = [] := List.length_eq_zero.mp (by omega)
      rw [if_neg (by simpa using h), ih, hnil, List.nil_append]

/-- In a map of the loop, the payloads with key `k` are those of the slice held
for `k`. -/
theorem withKey_flatMap_entries (k : GoBytes) (m : BatchMap)
    (hent : ∀ e ∈ m, ∀ q ∈ e.2.elems, q.index = e.1) (hnd : (m.map Prod.fst).Nodup) :
    withKey k (m.flatMap (fun e => e.2.elems)) = (BatchMap.index m k).elems := by
  induction m with
  | nil => rfl
  | cons e m ih =>
    rw [List.map_cons, List.nodup_cons] at hnd
    have ih1 := ih (fun x hx => hent x (List.mem_cons_of_mem _ hx)) hnd.2
    have he := hent e (List.mem_cons_self _ _)
    rw [List.flatMap_cons, withKey_append, ih1]
    by_cases hk : e.1 = k
    · have hnone : BatchMap.get? m k = none := by
        cases hg : BatchMap.get? m k with
        | none => rfl
        | some v =>
          exfalso
          apply hnd.1
          rw [hk]
          exact List.mem_map_of_mem Prod.fst (BatchMap.mem_of_get? hg)
      rw [BatchMap.index_of_get?_none hnone, List.append_nil,
        withKey_of_all (fun q hq => (he q hq).trans hk)]
      rw [BatchMap.index, BatchMap.get?_cons, if_pos hk]
      rfl
    · rw [withKey_of_none he hk, List.nil_append]
      rw [BatchMap.index, BatchMap.index, BatchMap.get?_cons, if_neg hk]

theorem BatchMap.index_set_self (m : BatchMap) (k : GoBytes) (v : PayloadSlice) :
    BatchMap.index (BatchMap.set m k v) k = v := by
  rw [BatchMap.index, BatchMap.get?_set_self]
  rfl

theorem BatchMap.index_set_ne (m : BatchMap) (v : PayloadSlice) {k k1 : GoBytes}
    (hk : k1 ≠ k) : BatchMap.index (BatchMap.set m k v) k1 = BatchMap.index m k1 := by
  rw [BatchMap.index, BatchMap.index, BatchMap.get?_set_ne m v hk]

theorem BatchMap.index_delete_ne (m : BatchMap) {k k1 : GoBytes} (hk : k1 ≠ k) :
    BatchMap.index (BatchMap.delete m k) k1 = BatchMap.index m k1 := by
  rw [BatchMap.index, BatchMap.index, BatchMap.get?_delete_ne m hk]

theorem BatchMap.index_delete_self (m : BatchMap) (k : GoBytes) :
    (BatchMap.index (BatchMap.delete m k) k).elems = [] :=
  BatchMap.index_of_get?_none (BatchMap.get?_delete_self m k)

/-- Conservation in terms of all the payloads sent: those with key `k`, followed
by the slice held for `k`, are the arrived payloads with key `k`. -/
theorem Run.conservation {grow : Nat → Nat} {arrived : List Payload} {st : BatcherState}
    (h : Run grow arrived st) (k : GoBytes) :
    withKey k (st.Outbox.flatMap (fun b => b.elems)) ++ (st.batchMap.index k).elems =
      withKey k arrived := by
  induction h with
  | init => rfl
  | @payload arrived st hrun p ih =>
    have hinv := hrun.reachable.inv
    rw [withKey_append]
    have hp1 : withKey k [p] = if p.index = k then [p] else [] := by
      by_cases hk : p.index = k <;> simp [withKey, hk]
    cases hget : st.batchMap.get? p.index with
    | none =>
      rw [handlePayload_absent grow st p hget, ← ih]
      by_cases hk : p.index = k
      · subst hk
        rw [BatchMap.index_set_self, BatchMap.index_of_get?_none hget, hp1, if_pos rfl]
        simp
      · rw [BatchMap.index_set_ne _ _ (Ne.symm hk), hp1, if_neg hk, List.append_nil]
    | some s =>
      obtain ⟨hc, _, hl, hidx⟩ := hinv.1 _ (BatchMap.mem_of_get? hget)
      simp only at hc hl hidx
      have hall : ∀ q ∈ s.elems ++ [p], q.index = p.index := by
        intro q hq
        rcases List.mem_append.mp hq with hq | hq
        · exact hidx q hq
        · rw [List.mem_singleton.mp hq]
      rw [handlePayload_present grow st p s hget hc hl, ← ih]
      by_cases h299 : s.elems.length = 299
      · rw [if_pos h299]
        simp only [List.flatMap_append, List.flatMap_cons, List.flatMap_nil,
          List.append_nil, withKey_append]
        by_cases hk : p.index = k
        · subst hk
          rw [BatchMap.index_delete_self, BatchMap.index_of_get?_some hget,
            withKey_of_all hidx]
          simp
        · rw [BatchMap.index_delete_ne _ (Ne.symm hk), BatchMap.index_set_ne _ _ (Ne.symm hk),
            withKey_of_none hidx hk, hp1, if_neg hk]
          simp
      · rw [if_neg h299]
        by_cases hk : p.index = k
        · subst hk
          rw [BatchMap.index_set_self, BatchMap.index_of_get?_some hget, hp1, if_pos rfl]
          simp
        · rw [BatchMap.index_set_ne _ _ (Ne.symm hk), hp1, if_neg hk, List.append_nil]
  | @tick arrived st hrun order hp ih =>
    have hinv := hrun.reachable.inv
    rw [← ih, handleTick_batchMap_nil st order hp, handleTick_Outbox, List.flatMap_append,
      withKey_append, nonEmptySlices_flatMap]
    have hnd2 : (order.map Prod.fst).Nodup := (hp.map Prod.fst).nodup_iff.mpr hinv.2.1
    rw [withKey_flatMap_entries k order (fun e he => (hinv.1 e (hp.subset he)).2.2.2) hnd2]
    have hsame : BatchMap.index order k = BatchMap.index st.batchMap k := by
      unfold BatchMap.index
      rw [BatchMap.get?_perm hinv.2.1 hp]
    have hnil : (BatchMap.index [] k).elems = [] := rfl
    rw [hsame, hnil, List.append_nil]

/-- The sample run that ends in `stateAfterRun`. -/
theorem stateAfterRun_run :
    Run id ([] ++ [payloadUP] ++ [payloadAbC] ++ [payloadUP] ++ [payloadUP]) stateAfterRun :=
  Run.payload
    (Run.tick
      (Run.payload (Run.payload (Run.payload Run.init payloadUP) payloadAbC) payloadUP)
      stateBeforeTick.batchMap (List.Perm.refl _))
    payloadUP

/-- C12. After any sequence of payload arrivals and timer ticks, for every
grouping key `k`: the slices sent on `Outbox` for `k`, concatenated in the order
they were sent and followed by the slice still held in the map for `k`, are the
arrived payloads with key `k` in the order of their arrival. No payload with
key `k` is anywhere else: the slices sent for `k` hold all the payloads with key
`k` that were sent, and the slices held for other keys hold none. -/
theorem per_key_conservation (grow : Nat → Nat) (arrived : List Payload) (st : BatcherState)
    (h : Run grow arrived st) (k : GoBytes) :
    sentFor k st.Outbox ++ (st.batchMap.index k).elems = withKey k arrived ∧
    sentFor k st.Outbox = withKey k (st.Outbox.flatMap (fun b => b.elems)) ∧
    (∀ e ∈ st.batchMap, e.1 ≠ k → withKey k e.2.elems = []) := by
  have hinv := h.reachable.inv
  have hsent : sentFor k st.Outbox = withKey k (st.Outbox.flatMap (fun b => b.elems)) :=
    sentFor_eq_withKey k st.Outbox (fun b hb => (hinv.2.2 b hb).2.2)
  refine ⟨?_, hsent, ?_⟩
  · rw [hsent]
    exact h.conservation k
  · intro e he hk
    exact withKey_of_none (hinv.1 e he).2.2.2 hk

/-- Witness of C12 on the sample run: two payloads of `u:p` are sent by the tick,
the third is still held, and together they are the three arrivals of `u:p`. -/
theorem per_key_conservation_witness :
    sentFor payloadUP.index stateAfterRun.Outbox ++
        (stateAfterRun.batchMap.index payloadUP.index).elems =
      [payloadUP, payloadUP, payloadUP] ∧
    sentFor payloadUP.index stateAfterRun.Outbox = [payloadUP, payloadUP] :=
  ⟨(per_key_conservation id _ stateAfterRun stateAfterRun_run payloadUP.index).1.trans
      (by decide),
   by decide⟩

/-- C20. In every state the loop of `batch` reaches from the empty map by
payload arrivals and timer ticks, every slice held in the map has between 1 and
299 payloads and every slice sent on `Outbox` has between 1 and 300 payloads;
hence for a slice sent by the batcher `outlet` does not take its empty-batch
branch, its read of `payloads[0]` is in range, and it goes on to marshal the
slice and to post it with the credentials of that first payload. -/
theorem batch_size_bounds (grow : Nat → Nat) (st : BatcherState) (h : Reachable grow st) :
    (∀ e ∈ st.batchMap, 1 ≤ e.2.elems.length ∧ e.2.elems.length ≤ 299) ∧
    (∀ b ∈ st.Outbox, 1 ≤ b.elems.length ∧ b.elems.length ≤ 300) ∧
    (∀ b ∈ st.Outbox, ∀ (retries : Int) (marshal : List Payload → Option GoBytes)
        (net : Nat → Exchange),
      ∃ sample, b.elems[0]? = some sample ∧
        outletOne retries marshal net b =
          (match marshal b.elems with
            | none => .jsonError sample.User
            | some j => .posted (postWithRetry retries net sample.User sample.Pass j))) := by
  have hinv := h.inv
  refine ⟨?_, ?_, ?_⟩
  · intro e he
    obtain ⟨_, h1, h2, _⟩ := hinv.1 e he
    omega
  · intro b hb
    obtain ⟨h1, h2, _⟩ := hinv.2.2 b hb
    omega
  · intro b hb retries marshal net
    obtain ⟨h1, _, _⟩ := hinv.2.2 b hb
    cases hel : b.elems with
    | nil => rw [hel] at h1; cases h1
    | cons sample rest =>
      refine ⟨sample, by simp, ?_⟩
      unfold outletOne
      rw [hel]
      simp

/-- Witness of C20 on the sample run: the map holds one slice of one payload, and
the two slices sent have two payloads and one payload. -/
theorem batch_size_bounds_witness :
    (∀ e ∈ stateAfterRun.batchMap, 1 ≤ e.2.elems.length ∧ e.2.elems.length ≤ 299) ∧
    stateAfterRun.batchMap.map (fun e => e.2.elems.length) = [1] ∧
    (∀ b ∈ stateAfterRun.Outbox, 1 ≤ b.elems.length ∧ b.elems.length ≤ 300) ∧
    stateAfterRun.Outbox.map (fun b => b.elems.length) = [2, 1] :=
  ⟨(batch_size_bounds id stateAfterRun stateAfterRun_run.reachable).1, by decide,
   (batch_size_bounds id stateAfterRun stateAfterRun_run.reachable).2.1, by decide⟩

/-! ## Theorems: delivery -/

/-- Go's integer division by 100 gives 2 exactly on the codes from 200 to 299. -/
theorem tdiv_hundred_eq_two (c : Int) : c.tdiv 100 = 2 ↔ 200 ≤ c ∧ c ≤ 299 := by
  by_cases hc : 0 ≤ c
  · rw [Int.tdiv_eq_ediv hc (by decide)]
    omega
  · have hneg : 0 ≤ -c := by omega
    have h1 : c.tdiv 100 = -((-c).tdiv 100) := by
      rw [Int.neg_tdiv, Int.neg_neg]
    have h2 : 0 ≤ (-c).tdiv 100 := Int.tdiv_nonneg hneg (by decide)
    constructor
    · intro h
      omega
    · intro h
      omega

/-- The method `post` on a transport error. -/
theorem post_of_error (net : Nat → Exchange) (u p : GoBytes) (d : Delivery) (e : GoBytes)
    (h : (net d.requests.length).result = .error e) :
    post net u p d =
      (some (.transport e),
        ⟨d.body.drop (net d.requests.length).sent, d.requests ++ [⟨u, p, d.body⟩]⟩) := by
  simp only [post, h]

/-- The method `post` on a response. -/
theorem post_of_response (net : Nat → Exchange) (u p : GoBytes) (d : Delivery)
    (resp : Response) (h : (net d.requests.length).result = .ok resp) :
    post net u p d =
      (if resp.StatusCode.tdiv 100 ≠ 2 then
        (match resp.Body with
          | none => some (.failedRequestCode resp.StatusCode)
          | some s =>
            some (.failedRequest resp.StatusCode s
              (d.body.drop (net d.requests.length).sent)))
      else none,
        ⟨d.body.drop (net d.requests.length).sent, d.requests ++ [⟨u, p, d.body⟩]⟩) := by
  simp only [post, h]
  split
  · cases resp.Body <;> rfl
  · rfl

/-- The result of `post` is decided by the exchange of its request. -/
theorem post_eq_none_iff (net : Nat → Exchange) (u p : GoBytes) (d : Delivery) :
    (post net u p d).1 = none ↔ (net d.requests.length).succeeds = true := by
  cases hres : (net d.requests.length).result with
  | error e =>
    rw [post_of_error net u p d e hres, Exchange.succeeds, hres]
    simp
  | ok resp =>
    rw [post_of_response net u p d resp hres, Exchange.succeeds, hres]
    simp only [decide_eq_true_eq]
    rw [← tdiv_hundred_eq_two]
    by_cases h2 : resp.StatusCode.tdiv 100 = 2
    · simp [h2]
    · simp only [ne_eq, h2, not_false_eq_true, if_true, iff_false]
      cases resp.Body <;> simp

/-- Each call of `post` gives one request to the transport, which reads from the
shared buffer. -/
theorem post_requests (net : Nat → Exchange) (u p : GoBytes) (d : Delivery) :
    (post net u p d).2.requests = d.requests ++ [⟨u, p, d.body⟩] ∧
    (post net u p d).2.body = d.body.drop (net d.requests.length).sent := by
  cases hres : (net d.requests.length).result with
  | error e => rw [post_of_error net u p d e hres]; exact ⟨rfl, rfl⟩
  | ok resp => rw [post_of_response net u p d resp hres]; exact ⟨rfl, rfl⟩

/-- The method `post` never returns the error of the fall-through of
`postWithRetry`. -/
theorem post_ne_unableToPost (net : Nat → Exchange) (u p : GoBytes) (d : Delivery) :
    (post net u p d).1 ≠ some .unableToPost := by
  cases hres : (net d.requests.length).result with
  | error e => rw [post_of_error net u p d e hres]; simp
  | ok resp =>
    rw [post_of_response net u p d resp hres]
    simp only
    split
    · cases resp.Body <;> simp
    · simp

/-- C16. For a response obtained without transport error, with status code `c`,
`post` returns nil if and only if `200 <= c <= 299`, that is if and only if
`c / 100 = 2` in Go's integer division, and returns an error for every other
status code; a transport error always yields an error. -/
theorem post_success_iff_2xx (net : Nat → Exchange) (u p : GoBytes) (d : Delivery) :
    (∀ resp : Response, (net d.requests.length).result = .ok resp →
      ((post net u p d).1 = none ↔ 200 ≤ resp.StatusCode ∧ resp.StatusCode ≤ 299) ∧
      ((post net u p d).1 = none ↔ resp.StatusCode.tdiv 100 = 2) ∧
      (¬ (200 ≤ resp.StatusCode ∧ resp.StatusCode ≤ 299) →
        ∃ err, (post net u p d).1 = some err)) ∧
    (∀ e : GoBytes, (net d.requests.length).result = .error e →
      (post net u p d).1 = some (.transport e)) := by
  constructor
  · intro resp hres
    have h1 : (post net u p d).1 = none ↔ 200 ≤ resp.StatusCode ∧ resp.StatusCode ≤ 299 := by
      rw [post_eq_none_iff, Exchange.succeeds, hres]
      simp
    refine ⟨h1, by rw [h1, tdiv_hundred_eq_two], ?_⟩
    intro hnot
    cases hp : (post net u p d).1 with
    | none => exact absurd (h1.mp hp) hnot
    | some err => exact ⟨err, rfl⟩
  · intro e hres
    rw [post_of_error net u p d e hres]

/-- Witness of C16: the codes 200 and 299 succeed; 199, 300, 404, 500 and -250
fail; a refused connection fails. -/
theorem post_success_iff_2xx_witness :
    (post (fun _ => ⟨0, .ok ⟨200, some []⟩⟩) [] [] ⟨ascii "body", []⟩).1 = none ∧
    (post (fun _ => ⟨0, .ok ⟨299, some []⟩⟩) [] [] ⟨ascii "body", []⟩).1 = none ∧
    (post (fun _ => ⟨0, .ok ⟨199, some []⟩⟩) [] [] ⟨ascii "body", []⟩).1 ≠ none ∧
    (post (fun _ => ⟨0, .ok ⟨300, some []⟩⟩) [] [] ⟨ascii "body", []⟩).1 ≠ none ∧
    (post (fun _ => ⟨0, .ok ⟨-250, some []⟩⟩) [] [] ⟨ascii "body", []⟩).1 ≠ none ∧
    (post (fun _ => ⟨0, .error (ascii "connection refused")⟩) [] [] ⟨ascii "body", []⟩).1 =
      some (.transport (ascii "connection refused")) :=
  ⟨((post_success_iff_2xx (fun _ => ⟨0, .ok ⟨200, some []⟩⟩) [] [] ⟨ascii "body", []⟩).1
      ⟨200, some []⟩ rfl).1.mpr (by decide),
   ((post_success_iff_2xx (fun _ => ⟨0, .ok ⟨299, some []⟩⟩) [] [] ⟨ascii "body", []⟩).1
      ⟨299, some []⟩ rfl).1.mpr (by decide),
   fun h => absurd (((post_success_iff_2xx (fun _ => ⟨0, .ok ⟨199, some []⟩⟩) [] []
      ⟨ascii "body", []⟩).1 ⟨199, some []⟩ rfl).1.mp h) (by decide),
   fun h => absurd (((post_success_iff_2xx (fun _ => ⟨0, .ok ⟨300, some []⟩⟩) [] []
      ⟨ascii "body", []⟩).1 ⟨300, some []⟩ rfl).1.mp h) (by decide),
   fun h => absurd (((post_success_iff_2xx (fun _ => ⟨0, .ok ⟨-250, some []⟩⟩) [] []
      ⟨ascii "body", []⟩).1 ⟨-250, some []⟩ rfl).1.mp h) (by decide),
   (post_success_iff_2xx (fun _ => ⟨0, .error (ascii "connection refused")⟩) [] []
      ⟨ascii "body", []⟩).2 (ascii "connection refused") rfl⟩

/-- One turn of the loop of `postWithRetry`. -/
theorem retryLoop_cons (retries : Int) (net : Nat → Exchange) (u p : GoBytes)
    (i : Nat) (rest : List Nat) (d : Delivery) :
    retryLoop retries net u p (i :: rest) d =
      if (post net u p d).1 = none then post net u p d
      else if (i : Int) = retries then post net u p d
      else retryLoop retries net u p rest (post net u p d).2 := by
  rw [retryLoop]
  rcases post net u p d with ⟨_ | err, d1⟩
  · simp
  · simp

/-- When every call fails, the loop returns what the call number `r + 1`
returns. -/
theorem retryLoop_all_fail (r : Nat) (net : Nat → Exchange) (u p : GoBytes) :
    ∀ (n i : Nat) (d : Delivery), i + n = r → d.requests.length = i →
      (∀ j, i ≤ j → j ≤ r → (net j).succeeds = false) →
      ∃ d1 : Delivery, d1.requests.length = r ∧
        retryLoop r net u p (List.range' i (n + 1)) d = post net u p d1 ∧
        (post net u p d1).1 ≠ none := by
  intro n
  induction n with
  | zero =>
    intro i d hi hd hfail
    have hir : i = r := by omega
    have hne : (post net u p d).1 ≠ none := by
      rw [Ne, post_eq_none_iff, hd, hfail i (Nat.le_refl _) (by omega)]
      simp
    refine ⟨d, by omega, ?_, hne⟩
    rw [show List.range' i (0 + 1) = [i] from rfl, retryLoop_cons, if_neg hne, hir, if_pos rfl]
  | succ n ih =>
    intro i d hi hd hfail
    have hne : (post net u p d).1 ≠ none := by
      rw [Ne, post_eq_none_iff, hd, hfail i (Nat.le_refl _) (by omega)]
      simp
    have hir : ¬ ((i : Int) = (r : Int)) := by omega
    obtain ⟨d1, h1, h2, h3⟩ := ih (i + 1) (post net u p d).2 (by omega)
      (by rw [(post_requests net u p d).1, List.length_append, hd]; rfl)
      (fun j hj1 hj2 => hfail j (by omega) hj2)
    refine ⟨d1, h1, ?_, h3⟩
    rw [List.range'_succ, retryLoop_cons, if_neg hne, if_neg hir, h2]

/-- When the call number `m + 1` is the first that succeeds, the loop returns what
that call returns. -/
theorem retryLoop_first_success (r : Nat) (net : Nat → Exchange) (u p : GoBytes) (m : Nat)
    (hm : (net m).succeeds = true) :
    ∀ (n i : Nat) (d : Delivery), i + n = r → d.requests.length = i → i ≤ m → m ≤ r →
      (∀ j, i ≤ j → j < m → (net j).succeeds = false) →
      ∃ d1 : Delivery, d1.requests.length = m ∧
        retryLoop r net u p (List.range' i (n + 1)) d = post net u p d1 ∧
        (post net u p d1).1 = none := by
  intro n
  induction n with
  | zero =>
    intro i d hi hd him hmr hfail
    have hi2 : i = m := by omega
    have hok : (post net u p d).1 = none := by
      rw [post_eq_none_iff, hd, hi2, hm]
    refine ⟨d, by omega, ?_, hok⟩
    rw [show List.range' i (0 + 1) = [i] from rfl, retryLoop_cons, if_pos hok]
  | succ n ih =>
    intro i d hi hd him hmr hfail
    by_cases hi2 : i = m
    · have hok : (post net u p d).1 = none := by
        rw [post_eq_none_iff, hd, hi2, hm]
      refine ⟨d, by omega, ?_, hok⟩
      rw [List.range'_succ, retryLoop_cons, if_pos hok]
    · have hne : (post net u p d).1 ≠ none := by
        rw [Ne, post_eq_none_iff, hd, hfail i (Nat.le_refl _) (by omega)]
        simp
      have hir : ¬ ((i : Int) = (r : Int)) := by omega
      obtain ⟨d1, h1, h2, h3⟩ := ih (i + 1) (post net u p d).2 (by omega)
        (by rw [(post_requests net u p d).1, List.length_append, hd]; rfl)
        (by omega) hmr (fun j hj1 hj2 => hfail j (by omega) hj2)
      refine ⟨d1, h1, ?_, h3⟩
      rw [List.range'_succ, retryLoop_cons, if_neg hne, if_neg hir, h2]

/-- For a number of retries that is not negative the loop returns from inside:
never the error of the fall-through, and never without a call of `post`. -/
theorem retryLoop_returns_inside (r : Nat) (net : Nat → Exchange) (u p : GoBytes) :
    ∀ (n i : Nat) (d : Delivery), i + n = r →
      (retryLoop r net u p (List.range' i (n + 1)) d).1 ≠ some .unableToPost ∧
      d.requests.length <
        (retryLoop r net u p (List.range' i (n + 1)) d).2.requests.length := by
  intro n
  induction n with
  | zero =>
    intro i d hi
    have hir : (i : Int) = (r : Int) := by omega
    have hlen : d.requests.length < (post net u p d).2.requests.length := by
      rw [(post_requests net u p d).1, List.length_append]
      simp
    rw [show List.range' i (0 + 1) = [i] from rfl, retryLoop_cons]
    split
    · exact ⟨post_ne_unableToPost net u p d, hlen⟩
    · exact ⟨post_ne_unableToPost net u p d, hlen⟩
  | succ n ih =>
    intro i d hi
    have hlen : d.requests.length < (post net u p d).2.requests.length := by
      rw [(post_requests net u p d).1, List.length_append]
      simp
    rw [List.range'_succ, retryLoop_cons]
    split
    · exact ⟨post_ne_unableToPost net u p d, hlen⟩
    · split
      · exact ⟨post_ne_unableToPost net u p d, hlen⟩
      · obtain ⟨h1, h2⟩ := ih (i + 1) (post net u p d).2 (by omega)
        exact ⟨h1, Nat.lt_trans hlen h2⟩

/-- The indices the loop of `postWithRetry` runs through for `r` retries. -/
theorem postWithRetry_nat (r : Nat) (net : Nat → Exchange) (u p body : GoBytes) :
    postWithRetry r net u p body =
      retryLoop r net u p (List.range' 0 (r + 1)) ⟨body, []⟩ := by
  rw [postWithRetry, List.range_eq_range']
  congr 2

/-- C13. For `Retries = r >= 0`: when the calls of `post` all fail, `postWithRetry`
makes exactly `r + 1` calls and returns what the last of them returns, an
error; when the first call that succeeds is the `k`-th, with `1 <= k <= r + 1`,
it makes exactly `k` calls, none after the success, and returns nil. -/
theorem retry_bound (r : Nat) (net : Nat → Exchange) (u p body : GoBytes) :
    ((∀ i, i ≤ r → (net i).succeeds = false) →
      (postWithRetry r net u p body).2.requests.length = r + 1 ∧
      ∃ d : Delivery, d.requests.length = r ∧
        postWithRetry r net u p body = post net u p d ∧ (post net u p d).1 ≠ none) ∧
    (∀ k, 1 ≤ k → k ≤ r + 1 → (∀ i, i + 1 < k → (net i).succeeds = false) →
      (net (k - 1)).succeeds = true →
      (postWithRetry r net u p body).2.requests.length = k ∧
      (postWithRetry r net u p body).1 = none) := by
  rw [postWithRetry_nat]
  constructor
  · intro hfail
    obtain ⟨d, h1, h2, h3⟩ := retryLoop_all_fail r net u p r 0 ⟨body, []⟩ (by omega) rfl
      (fun j _ hj => hfail j hj)
    refine ⟨?_, d, h1, h2, h3⟩
    rw [h2, (post_requests net u p d).1, List.length_append, h1]
    rfl
  · intro k hk1 hk2 hfail hok
    obtain ⟨d, h1, h2, h3⟩ := retryLoop_first_success r net u p (k - 1) hok r 0 ⟨body, []⟩
      (by omega) rfl (by omega) (by omega) (fun j _ hj => hfail j (by omega))
    rw [h2]
    refine ⟨?_, h3⟩
    rw [(post_requests net u p d).1, List.length_append, h1]
    simp only [List.length_singleton]
    omega

/-- Witness of C13 with 3 retries: on a network that always answers 500 there are
4 requests and an error; on a network that answers 200 to the third request
there are 3 requests and no error. -/
theorem retry_bound_witness :
    (postWithRetry 3 netAlways500 (ascii "u") (ascii "p") (ascii "body")).2.requests.length = 4 ∧
    (postWithRetry 3 netAlways500 (ascii "u") (ascii "p") (ascii "body")).1 ≠ none ∧
    (postWithRetry 3 netThird200 (ascii "u") (ascii "p") (ascii "body")).2.requests.length = 3 ∧
    (postWithRetry 3 netThird200 (ascii "u") (ascii "p") (ascii "body")).1 = none := by
  have h1 := (retry_bound 3 netAlways500 (ascii "u") (ascii "p") (ascii "body")).1
    (fun _ _ => rfl)
  have h2 := (retry_bound 3 netThird200 (ascii "u") (ascii "p") (ascii "body")).2 3
    (by decide) (by decide)
    (fun i hi => by
      have hi2 : i < 2 := by omega
      simp [netThird200, hi2, Exchange.succeeds])
    (by decide)
  obtain ⟨h1a, d, _, h1b, h1c⟩ := h1
  exact ⟨h1a, by
    have e : postWithRetry ((3 : Nat) : Int) netAlways500 (ascii "u") (ascii "p") (ascii "body") =
        post netAlways500 (ascii "u") (ascii "p") d := h1b
    intro hn
    apply h1c
    rw [← e]
    exact hn, h2.1, h2.2⟩

/-- C17, the code on the failing input. With `Retries = -1`, and with any negative
value, the loop of `postWithRetry` is not entered: the function returns the
error "Unable to post." of its last line without a single call of `post`. For
`Retries >= 0` it does return from inside the loop, after at least one call. -/
theorem postWithRetry_negative_retries :
    (∀ (net : Nat → Exchange) (u p body : GoBytes),
      postWithRetry (-1) net u p body = (some .unableToPost, ⟨body, []⟩)) ∧
    (∀ (retries : Int) (net : Nat → Exchange) (u p body : GoBytes), retries < 0 →
      postWithRetry retries net u p body = (some .unableToPost, ⟨body, []⟩)) ∧
    (∀ (r : Nat) (net : Nat → Exchange) (u p body : GoBytes),
      (postWithRetry r net u p body).1 ≠ some .unableToPost ∧
      1 ≤ (postWithRetry r net u p body).2.requests.length) := by
  have hneg : ∀ (retries : Int) (net : Nat → Exchange) (u p body : GoBytes), retries < 0 →
      postWithRetry retries net u p body = (some .unableToPost, ⟨body, []⟩) := by
    intro retries net u p body h
    have h0 : (retries + 1).toNat = 0 := by omega
    rw [postWithRetry, h0]
    rfl
  refine ⟨fun net u p body => hneg (-1) net u p body (by decide), hneg, ?_⟩
  intro r net u p body
  rw [postWithRetry_nat]
  obtain ⟨h1, h2⟩ := retryLoop_returns_inside r net u p r 0 ⟨body, []⟩ (by omega)
  exact ⟨h1, h2⟩

/-- C14, the code on the failing input. With one retry, on a network that
answers 500 after reading the whole request body, the first request carries
the serialized batch and the second request carries an empty body: the
transport has read the shared buffer empty, and `post` builds the retry from
what is left in it. -/
theorem retry_resends_drained_body :
    (postWithRetry 1 netAlways500 (ascii "u") (ascii "p") (ascii "body")).2.requests =
      [⟨ascii "u", ascii "p", ascii "body"⟩, ⟨ascii "u", ascii "p", []⟩] ∧
    (post netAlways500 (ascii "u") (ascii "p") ⟨ascii "body", []⟩).2.body = [] ∧
    (∀ (net : Nat → Exchange) (u p : GoBytes) (d : Delivery),
      (post net u p d).2.body = d.body.drop (net d.requests.length).sent ∧
      (post net u p (post net u p d).2).2.requests =
        d.requests ++ [⟨u, p, d.body⟩, ⟨u, p, d.body.drop (net d.requests.length).sent⟩]) := by
  refine ⟨by decide, by decide, ?_⟩
  intro net u p d
  refine ⟨(post_requests net u p d).2, ?_⟩
  rw [(post_requests net u p _).1, (post_requests net u p d).1, (post_requests net u p d).2]
  simp

/-- C18, the code on the failing input. The constructor never assigns its argument
`r`: the outlet it returns has `Retries = 0`, the zero value, whatever `r` is,
with `NumConverters = c` and `NumOutlets = c`. For `NewLibratoOutlet(10, 2, 3, rdr)`
the field is 0 and not 3, and a delivery that always fails is attempted once,
not 4 times. -/
theorem NewLibratoOutlet_ignores_retries :
    (∀ (s c r : Int) (rdr : Unit), 0 ≤ s →
      ∃ l, NewLibratoOutlet s c r rdr = some l ∧
        l.Retries = 0 ∧ l.NumConverters = c ∧ l.NumOutlets = c) ∧
    (NewLibratoOutlet 10 2 3 ()).map (fun l => l.Retries) = some 0 ∧
    (NewLibratoOutlet 10 2 3 ()).map (fun l => l.Retries) ≠ some 3 ∧
    (postWithRetry 0 netAlways500 (ascii "u") (ascii "p") (ascii "body")).2.requests.length = 1 ∧
    (postWithRetry 3 netAlways500 (ascii "u") (ascii "p") (ascii "body")).2.requests.length = 4 := by
  refine ⟨?_, by decide, by decide, by decide, by decide⟩
  intro s c r rdr hs
  have hs2 : ¬ s < 0 := by omega
  exact ⟨_, by rw [NewLibratoOutlet, if_neg hs2], rfl, rfl, rfl⟩

/-! ## Theorems: conversion -/

theorem digitChar_isDigit : ∀ d, d < 10 → isDigit (Nat.digitChar d).toNat = true := by
  decide

theorem toDigitsCore_isDigit (fuel : Nat) :
    ∀ (n : Nat) (ds : List Char), (∀ c ∈ ds, isDigit c.toNat = true) →
      ∀ c ∈ Nat.toDigitsCore 10 fuel n ds, isDigit c.toNat = true := by
  induction fuel with
  | zero =>
    intro n ds hds c hc
    rw [Nat.toDigitsCore] at hc
    exact hds c hc
  | succ fuel ih =>
    intro n ds hds c hc
    rw [Nat.toDigitsCore] at hc
    have hcons : ∀ x ∈ Nat.digitChar (n % 10) :: ds, isDigit x.toNat = true := by
      intro x hx
      rcases List.mem_cons.mp hx with rfl | hx
      · exact digitChar_isDigit _ (Nat.mod_lt _ (by decide))
      · exact hds x hx
    split at hc
    · exact hcons c hc
    · exact ih _ _ hcons c hc

/-- The bytes of `decimalDigits` are digits. -/
theorem decimalDigits_isDigit (n : Nat) : ∀ b ∈ decimalDigits n, isDigit b = true := by
  intro b hb
  rw [decimalDigits, List.mem_map] at hb
  obtain ⟨c, hc, rfl⟩ := hb
  exact toDigitsCore_isDigit _ _ [] (by simp) c hc

theorem trimZeros_subset (ds : GoBytes) : ∀ b ∈ trimZeros ds, b ∈ ds := by
  intro b hb
  rw [trimZeros, List.mem_reverse] at hb
  exact List.mem_reverse.mp ((List.dropWhile_sublist _).subset hb)

theorem digitAt_isDigit (ds : GoBytes) (hds : ∀ b ∈ ds, isDigit b = true) (j : Int) :
    isDigit (digitAt ds j) = true := by
  rw [digitAt]
  split
  · rw [List.getD_eq_getElem?_getD]
    cases h : ds[j.toNat]? with
    | none => decide
    | some b => exact hds b (List.getElem?_mem h)
  · decide

/-- The digits `strconv` formats for the `'f'` verb are digits. -/
theorem roundFixed_isDigit (f : F64) (prec : Nat) :
    ∀ b ∈ (roundFixed f prec).1, isDigit b = true := by
  intro b hb
  rw [roundFixed] at hb
  split at hb
  · cases hb
  · split at hb
    · exact decimalDigits_isDigit _ b (trimZeros_subset _ b hb)
    · simp only at hb
      split at hb
      · cases hb
      · exact decimalDigits_isDigit _ b (trimZeros_subset _ b hb)

/-- The shape of what `ff` returns for a finite value: an optional `-`, an
integer part of at least one digit, a point and five digits. -/
theorem ff_finite_shape (neg : Bool) (f : F64) :
    ∃ ip fp : GoBytes,
      ff (.finite neg f) = (if neg then [45] else []) ++ ip ++ [dot] ++ fp ∧
      ip ≠ [] ∧ fp.length = 5 ∧
      (∀ b ∈ ip, isDigit b = true) ∧ (∀ b ∈ fp, isDigit b = true) := by
  have hds := roundFixed_isDigit f 5
  refine ⟨if 0 < (roundFixed f 5).2
      then (List.range (roundFixed f 5).2.toNat).map
        (fun (i : Nat) => digitAt (roundFixed f 5).1 (i : Int))
      else [48],
    (List.range 5).map
      (fun (i : Nat) => digitAt (roundFixed f 5).1 ((roundFixed f 5).2 + (i : Int))),
    ?_, ?_, by simp, ?_, ?_⟩
  · simp [ff, FormatFloatF, fmtF]
  · split
    · rename_i hpos
      intro hnil
      have hlen := congrArg List.length hnil
      simp only [List.length_map, List.length_range, List.length_nil] at hlen
      omega
    · simp
  · intro b hb
    split at hb
    · obtain ⟨i, _, rfl⟩ := List.mem_map.mp hb
      exact digitAt_isDigit _ hds _
    · rw [List.mem_singleton.mp hb]
      decide
  · intro b hb
    obtain ⟨i, _, rfl⟩ := List.mem_map.mp hb
    exact digitAt_isDigit _ hds _

/-- C15, counterexample. For a bucket whose only value, hence whose mean, is
`+Inf`, the payload `convert` emits has the value `"+Inf"`: not a decimal string
with 5 fractional digits, it holds no `'.'` at all. -/
theorem convert_infinite_mean :
    singleMean ⟨sampleId, [.inf false]⟩ = .inf false ∧
    (convertOne singleMean ⟨sampleId, [.inf false]⟩).map (fun q => q.Val) = [ascii "+Inf"] ∧
    dot ∉ ascii "+Inf" := by
  decide

/-- C15, amended. `convert` emits no payload for a bucket with zero values, and
otherwise exactly one payload whose Name is the name of the identity followed
by `.mean`, whose Source, User and Pass are those of the identity, whose Time is
the time of the identity in whole unix seconds, whose attributes are
`display_min` 0 and the units of the identity, and whose Val is
`FormatFloat(mean, 'f', 5, 64)`: for a finite mean a decimal string with an
integer part, a point and exactly 5 fractional digits. -/
theorem convert_one_payload (mean : Bucket → GoFloat) (bucket : Bucket) :
    (bucket.Vals = [] → convertOne mean bucket = []) ∧
    (bucket.Vals ≠ [] →
      convertOne mean bucket =
        [{ Name := bucket.Id.Name ++ ascii ".mean", Time := bucket.Id.Time.sec,
           Val := ff (mean bucket), Source := bucket.Id.Source, User := bucket.Id.User,
           Pass := bucket.Id.Pass, Attr := some ⟨0, bucket.Id.Units⟩ }]) ∧
    (∀ (neg : Bool) (f : F64), mean bucket = .finite neg f →
      ∃ ip fp : GoBytes,
        ff (mean bucket) = (if neg then [45] else []) ++ ip ++ [dot] ++ fp ∧
        ip ≠ [] ∧ fp.length = 5 ∧
        (∀ b ∈ ip, isDigit b = true) ∧ (∀ b ∈ fp, isDigit b = true)) := by
  refine ⟨?_, ?_, ?_⟩
  · intro h
    simp [convertOne, h]
  · intro h
    have hlen : ¬ bucket.Vals.length = 0 := fun h0 => h (List.length_eq_zero.mp h0)
    simp only [convertOne, hlen, if_false, ft]
  · intro neg f hm
    rw [hm]
    exact ff_finite_shape neg f

/-- Witness of C15, the end-to-end scenario: the bucket `myapp.response_time` in
`ms` from `web.1` for `u:p`, with the mean 123.456, gives one payload
`myapp.response_time.mean` with the value `"123.45600"`; a bucket without values
gives none. -/
theorem convert_one_payload_witness :
    convertOne singleMean ⟨sampleId, [.finite false f123456]⟩ =
      [{ Name := ascii "myapp.response_time.mean", Time := 1362187200,
         Val := ascii "123.45600", Source := ascii "web.1", User := ascii "u",
         Pass := ascii "p", Attr := some ⟨0, ascii "ms"⟩ }] ∧
    convertOne singleMean ⟨sampleId, []⟩ = [] ∧
    ParseFloat (ascii "123.456") = .ok f123456 :=
  ⟨((convert_one_payload singleMean ⟨sampleId, [.finite false f123456]⟩).2.1
      (by decide)).trans (by decide),
   (convert_one_payload singleMean ⟨sampleId, []⟩).1 rfl,
   by decide⟩

/-! ## Theorems: the slice of `Units` -/

/-- The slice of `Units` is out of range exactly when `Float64` succeeds and the
rendering of the number is longer than the value, `"1"` standing for an empty
value. -/
theorem Units_eq_none_iff (lt : logTuple) :
    lt.Units.1 = none ↔
      ∃ f, lt.Float64.1 = .ok f ∧ (valOrOne lt.Val).length < (FormatFloatG10 f).length := by
  rw [Units_eq, Float64_snd]
  cases h : lt.Float64.1 with
  | error e => simp
  | ok f =>
    simp only [Except.ok.injEq, exists_eq_left']
    split
    · rename_i hle
      simp only [reduceCtorEq, false_iff, not_lt]
      exact hle
    · rename_i hle
      simp only [true_iff]
      omega

/-- C19, the code on the failing inputs. On the value `".5"` `Float64` succeeds
with 0.5, rendered `"0.5"`: three bytes for a value of two, and the slice of
`Units` is out of range. On `"12345678901"` the rendering is `"1.23456789e+10"`:
fourteen bytes for a value of eleven, out of range again. -/
theorem Units_slice_out_of_range :
    (logTuple.Float64 ⟨ascii "val", ascii ".5"⟩).1 = .ok ⟨1, 1⟩ ∧
    FormatFloatG10 ⟨1, 1⟩ = ascii "0.5" ∧
    (logTuple.Units ⟨ascii "val", ascii ".5"⟩).1 = none ∧
    (logTuple.Float64 ⟨ascii "val", ascii "12345678901"⟩).1 = .ok ⟨12345678901, 0⟩ ∧
    FormatFloatG10 ⟨12345678901, 0⟩ = ascii "1.23456789e+10" ∧
    (logTuple.Units ⟨ascii "val", ascii "12345678901"⟩).1 = none := by
  decide

end L2met
